import Mathlib

/-!
# duq: disk-usage listing, sorted by size

A shallow embedding of `src/duq/duq.c` and proofs of properties of its three
parts: the recursive size aggregation (`get_directory_size`), the collection
pass (`process_entry`, `process_directory`) and the sorted, column-aligned
report printed by `main` (`format_size`, `format_double`, `compare_entries`).

## Modelling conventions

* The file system is a finite tree (`Node`). A directory carries the list of
  names that `readdir` hands out, in that order, the pseudo-entries `.` and
  `..` included when present; each name is paired with what `lstat` reports
  for it (`Node.noent` when `lstat` fails).
* A symbolic link carries the text `readlink` returns and the object that
  following the link would reach, so that "the link is not followed" is a
  statement about the code and not about the model.
* `off_t` is the 64-bit signed type: a sum of two `off_t` values that leaves
  the range wraps around (`off_add`), which is what the compiled program does
  where C leaves signed overflow undefined.
* A `double` is kept exactly, as an integer numerator over a power of two.
  The conversion `(double)size` rounds to a 53-bit significand (nearest, ties
  to even); division by `1024.0` only changes the exponent and is exact;
  `%.3f` rounds the exact value to thousandths (nearest, ties to even), as
  glibc does in the default rounding mode.
* `snprintf` into `full_path[PATH_MAX]` cuts the path after `PATH_MAX - 1`
  characters (a character stands for one byte), and `lstat` is then asked
  about the cut path: `lstat_full_path` says what it finds. The buffers
  `entry_display` and `size_buf` are never filled: a name has at most
  `NAME_MAX` bytes, a link text fewer than `PATH_MAX`, a formatted size at
  most 20.
* When a cut path names the directory that is being read, its parent, or a
  non-empty readable directory at a path that fills the buffer,
  `get_directory_size` enters the same directory again and again; how such a
  run ends is decided by the limits on open descriptors and on the stack,
  which are not modelled. Such a run has no outcome in the model (`none`,
  and the status `NO_OUTCOME` of `main`).
* Text written to `stderr` is not modelled; `stdout` is the list of lines
  written, each without its final newline.
-/

namespace Duq

/-! ## File-system objects -/

mutual
/-- What lives at a path, as seen by `lstat`, `opendir`/`readdir` and
`readlink`. -/
inductive Node where
  /-- Nothing can be stat-ed at the path: `lstat` returns `-1`. -/
  | noent
  /-- Regular file with its `st_size`. -/
  | reg (size : Int)
  /-- Symbolic link: its own `st_size`, the text `readlink` yields (`none`
  when `readlink` fails) and the object reached by following the link
  (`noent` for a dangling link). -/
  | lnk (size : Int) (text : Option String) (pointee : Node)
  /-- Socket, device, fifo: neither regular file, directory nor link. -/
  | other (size : Int)
  /-- Directory: whether `opendir` succeeds on it, and what `readdir`
  enumerates. -/
  | dir (readable : Bool) (entries : Entries)
/-- The sequence of directory entries handed out by `readdir`: each `d_name`
with the object found at `path/d_name`. -/
inductive Entries where
  | nil
  | cons (d_name : String) (node : Node) (rest : Entries)
end

/-- The entries as a list of name/object pairs, in `readdir` order. -/
def Entries.toList : Entries → List (String × Node)
  | .nil => []
  | .cons n x rest => (n, x) :: rest.toList

/-- The test `strcmp(d_name, ".") == 0 || strcmp(d_name, "..") == 0`. -/
def is_dot_or_dotdot (d_name : String) : Bool :=
  d_name == "." || d_name == ".."

/-- The direct children of a directory other than the `.` and `..`
pseudo-entries. -/
def Entries.children (es : Entries) : List (String × Node) :=
  es.toList.filter (fun e => !is_dot_or_dotdot e.1)

/-- The macro `S_ISLNK(sb.st_mode)` on the result of `lstat`. -/
def S_ISLNK : Node → Bool
  | .lnk _ _ _ => true
  | _ => false

/-- The macro `S_ISDIR(sb.st_mode)` on the result of `lstat`. -/
def S_ISDIR : Node → Bool
  | .dir _ _ => true
  | _ => false

/-- The macro `S_ISREG(sb.st_mode)` on the result of `lstat`. -/
def S_ISREG : Node → Bool
  | .reg _ => true
  | _ => false

/-- The field `sb.st_size` filled in by `lstat`. For a directory the value of
the inode size is never read by the program; it is taken as `0`. -/
def st_size : Node → Int
  | .reg s => s
  | .lnk s _ _ => s
  | .other s => s
  | _ => 0

/-- The text placed in `symlink_target` by the `readlink` block of
`process_entry`: the link text, or the empty string when `readlink` fails. -/
def readlink : Node → String
  | .lnk _ (some t) _ => t
  | _ => ""

/-! ## Machine limits -/

/-- The constant `PATH_MAX` of `<limits.h>` (Linux). -/
def PATH_MAX : Nat := 4096

/-- The greatest `off_t` value. -/
def OFF_MAX : Int := 2 ^ 63 - 1

/-- The least `off_t` value. -/
def OFF_MIN : Int := -2 ^ 63

/-- The sum `a + b` of two `off_t` values as the machine forms it: the exact
sum when it is an `off_t` value, and the sum wrapped around by `2^64` when it
leaves the range. Arguments that are not `off_t` values, which no variable of
the program holds, are added exactly. -/
def off_add (a b : Int) : Int :=
  if OFF_MAX < a + b ∧ a ≤ OFF_MAX ∧ b ≤ OFF_MAX then a + b - 2 ^ 64
  else if a + b < OFF_MIN ∧ OFF_MIN ≤ a ∧ OFF_MIN ≤ b then a + b + 2 ^ 64
  else a + b

/-- The text `snprintf(full_path, sizeof(full_path), "%s/%s", path, d_name)`
leaves in `full_path`: at most `PATH_MAX - 1` characters. -/
def snprintf_full_path (path d_name : String) : String :=
  String.mk ((path ++ "/" ++ d_name).data.take (PATH_MAX - 1))

/-- The object a directory holds under a name: that of the first entry with
this name, `noent` when there is none. -/
def Entries.lookup : Entries → String → Node
  | .nil, _ => .noent
  | .cons d_name x rest, name => if d_name = name then x else rest.lookup name

/-- What `lstat(full_path, &sb)` finds while the directory `self` at `path`,
with entries `es`, is read and `full_path` was built for the entry `d_name`
with object `own`. An uncut path names the entry itself. A path cut inside
the name names whatever the directory holds under the cut name, where `.`
is the directory itself and `..` its parent, a readable directory holding
`self` (the program has just read it; for the target of `main` this is an
assumption). A path cut before the name is the path of the directory
itself. -/
def lstat_full_path (path : String) (self : Node) (es : Entries) (d_name : String)
    (own : Node) : Node :=
  if path.length + 1 + d_name.length ≤ PATH_MAX - 1 then own
  else if PATH_MAX - 1 ≤ path.length + 1 then self
  else if String.mk (d_name.data.take (PATH_MAX - 1 - (path.length + 1))) = "." then self
  else if String.mk (d_name.data.take (PATH_MAX - 1 - (path.length + 1))) = ".." then
    .dir true (.cons "child" self .nil)
  else es.lookup (String.mk (d_name.data.take (PATH_MAX - 1 - (path.length + 1))))

/-! ## SizeAggregator: `get_directory_size` -/

/-- The call `get_directory_size(full_path)` on a real directory found at a
path that fills `full_path`: `0` when `opendir` fails or only `.` and `..`
are listed; otherwise every path built inside is cut back to `full_path`
itself, the directory is entered again, and the model has no outcome. -/
def get_directory_size_cut : Node → Option Int
  | .dir true es => if (es.children).isEmpty then some 0 else none
  | _ => some 0

mutual
/-- The function `get_directory_size(path)`, applied to the object at `path`.
`opendir` follows a symbolic link, fails on anything that is not a
directory and on an unreadable directory; on failure the result is `0`.
The result is `none` when the run has no outcome in the model. -/
def get_directory_size (path : String) : Node → Option Int
  | .dir true es => get_directory_size_loop path es es 0
  | .dir false _ => some 0
  | .lnk _ _ p => get_directory_size path p
  | .noent => some 0
  | .reg _ => some 0
  | .other _ => some 0
/-- The `while ((entry = readdir(dir)) != NULL)` loop of
`get_directory_size` over the entries still to come, where `all` are the
entries of the directory and `dir_size` is the value of the local so far; the
result is the value returned after `closedir`. -/
def get_directory_size_loop (path : String) (all : Entries) : Entries → Int → Option Int
  | .nil, dir_size => some dir_size
  | .cons d_name own rest, dir_size =>
    if is_dot_or_dotdot d_name then get_directory_size_loop path all rest dir_size
    else if path.length + 1 + d_name.length ≤ PATH_MAX - 1 then
      match own with
      | .noent => get_directory_size_loop path all rest dir_size
      | .dir r es =>
        match get_directory_size (snprintf_full_path path d_name) (.dir r es) with
        | none => none
        | some sub => get_directory_size_loop path all rest (off_add dir_size sub)
      | .lnk s _ _ => get_directory_size_loop path all rest (off_add dir_size s)
      | .reg s => get_directory_size_loop path all rest (off_add dir_size s)
      | .other s => get_directory_size_loop path all rest (off_add dir_size s)
    else
      match lstat_full_path path (.dir true all) all d_name own with
      | .noent => get_directory_size_loop path all rest dir_size
      | .dir r es =>
        match get_directory_size_cut (.dir r es) with
        | none => none
        | some sub => get_directory_size_loop path all rest (off_add dir_size sub)
      | .lnk s _ _ => get_directory_size_loop path all rest (off_add dir_size s)
      | .reg s => get_directory_size_loop path all rest (off_add dir_size s)
      | .other s => get_directory_size_loop path all rest (off_add dir_size s)
end

mutual
/-- The size function `computeSize` as the specification words it (section
4.1): `0` for a path that cannot be stat-ed or opened, the link's own size
for a symbolic link, the reported size for a regular file or other
non-directory, and for a directory the sum over its direct children other
than the pseudo-entries. -/
def computeSize : Node → Int
  | .noent => 0
  | .lnk s _ _ => s
  | .reg s => s
  | .other s => s
  | .dir false _ => 0
  | .dir true es => computeSizeSum es
/-- The sum of `computeSize` over the non-pseudo entries. -/
def computeSizeSum : Entries → Int
  | .nil => 0
  | .cons d_name x rest =>
    if is_dot_or_dotdot d_name then computeSizeSum rest
    else computeSize x + computeSizeSum rest
end

/-! ## Numbers and text -/

/-- Number of binary digits of `n`, computed with `fuel` halvings. -/
def bitlenAux : Nat → Nat → Nat
  | 0, _ => 0
  | fuel + 1, n => if n = 0 then 0 else bitlenAux fuel (n / 2) + 1

/-- Number of binary digits of `n` (`0` for `0`). -/
def bitlen (n : Nat) : Nat := bitlenAux n n

/-- Quotient `a / d` rounded to the nearest integer, ties to the even one. -/
def roundNearestEven (a d : Nat) : Nat :=
  if 2 * (a % d) > d ∨ (2 * (a % d) = d ∧ (a / d) % 2 = 1) then a / d + 1 else a / d

/-- The magnitude of `(double)n` for a natural number `n`: `n` rounded to a
53-bit significand, nearest with ties to even. Exact below `2^53`. -/
def round53 (n : Nat) : Nat :=
  roundNearestEven n (2 ^ (bitlen n - 53)) * 2 ^ (bitlen n - 53)

/-- A finite `double`, kept exactly as `num / 2^exp`. -/
structure Double where
  num : Int
  exp : Nat
deriving DecidableEq, Repr

/-- The conversion `(double)size` of an `off_t`. -/
def Double.ofInt (size : Int) : Double :=
  ⟨if size < 0 then -(round53 size.natAbs : Int) else (round53 size.natAbs : Int), 0⟩

/-- The test `s >= 1024.0`. -/
def Double.ge1024 (s : Double) : Bool :=
  decide (1024 * (2 : Int) ^ s.exp ≤ s.num)

/-- The update `s /= 1024.0`; exact, the significand is unchanged. -/
def Double.div1024 (s : Double) : Double :=
  ⟨s.num, s.exp + 10⟩

/-- The value of `s` in thousandths after the rounding done by `%.3f`. -/
def Double.thousandths (s : Double) : Nat :=
  roundNearestEven (s.num.natAbs * 1000) (2 ^ s.exp)

/-- The text of a natural number in decimal, as `%d` prints it. -/
def decimal (n : Nat) : List Char := Nat.toDigits 10 n

/-- The characters `snprintf(tmp, sizeof(tmp), "%.3f", value)` writes: sign,
integer part, decimal point, exactly three fraction digits. -/
def snprintf_3f (value : Double) : List Char :=
  (if value.num < 0 then ['-'] else []) ++ decimal (value.thousandths / 1000) ++
    ['.', Nat.digitChar (value.thousandths % 1000 / 100),
      Nat.digitChar (value.thousandths % 100 / 10), Nat.digitChar (value.thousandths % 10)]

/-- The characters `snprintf(buf, buf_size, "%lld", (long long)size)` writes. -/
def snprintf_lld (size : Int) : List Char :=
  (if size < 0 then ['-'] else []) ++ decimal size.natAbs

/-- The loop `while (p > tmp && *p == '0') *p-- = '\0';` of `format_double`.
The argument is `tmp[0..p]` read backwards from `p`; the result is what is
left of it when the loop stops. -/
def strip_zeros : List Char → List Char
  | c :: c' :: rest => if c = '0' then strip_zeros (c' :: rest) else c :: c' :: rest
  | l => l

/-- The step `if (p > tmp && *p == '.') *p = '\0';` of `format_double`, on
`tmp[0..p]` read backwards from `p`. -/
def strip_point : List Char → List Char
  | c :: c' :: rest => if c = '.' then c' :: rest else c :: c' :: rest
  | l => l

/-- The function `format_double(buf, buf_size, value)`: the text left in
`buf`. -/
def format_double (value : Double) : String :=
  String.mk (strip_point (strip_zeros (snprintf_3f value).reverse)).reverse

/-- The array `units` of `format_size`. -/
def units : List String := ["B", "K", "M", "G", "T", "P", "E", "Z", "Y"]

/-- The loop `while (s >= 1024.0 && unit_index < 8) { s /= 1024.0;
unit_index++; }` of `format_size`. The index bound ends it after at most
eight rounds, so eight units of fuel from index `0` always suffice. -/
def scale_loop : Nat → Double → Nat → Double × Nat
  | 0, s, unit_index => (s, unit_index)
  | fuel + 1, s, unit_index =>
    if s.ge1024 && decide (unit_index < units.length - 1) then
      scale_loop fuel s.div1024 (unit_index + 1)
    else (s, unit_index)

/-- The scaled value and unit index with which `format_size` leaves its
loop in unit mode. -/
def scale (size : Int) : Double × Nat :=
  scale_loop (units.length - 1) (Double.ofInt size) 0

/-- The function `format_size(size, buf, buf_size)`: the text left in `buf`,
for the given value of the global `unit_mode`. -/
def format_size (unit_mode : Bool) (size : Int) : String :=
  if unit_mode then
    format_double (scale size).1 ++ units.getD (scale size).2 ""
  else
    String.mk (snprintf_lld size)

/-! ## EntryCollector: `process_entry`, `process_directory` -/

/-- The options that `main` reads from the command line into globals before
any entry is processed; they do not change afterwards. -/
structure Config where
  unit_mode : Bool
  reverse_sort : Bool
  files_only : Bool
  directories_only : Bool
  min_size_threshold : Int
deriving DecidableEq, Repr

/-- The struct `Entry`. -/
structure Entry where
  size : Int
  size_str : String
  entry_display : String
deriving DecidableEq, Repr

/-- The globals written while entries are collected: `entry_list` (its
entries, in insertion order), `total_size` and `max_size_length`. -/
structure Globals where
  entry_list : List Entry
  total_size : Int
  max_size_length : Nat
deriving DecidableEq, Repr

/-- The initial values of the globals. -/
def Globals.init : Globals := ⟨[], 0, 0⟩

/-- The value `EXIT_SUCCESS`. -/
def EXIT_SUCCESS : Nat := 0

/-- The value `EXIT_FAILURE`. -/
def EXIT_FAILURE : Nat := 1

/-- The test `lstat(path, &sb) == -1`. -/
def lstat_fails : Node → Bool
  | .noent => true
  | _ => false

/-- The text after the last `/` of a path, or the whole path when it has no
`/`: `strrchr(path, '/')` followed by `basename + 1`. -/
def after_last_slash : List Char → List Char
  | [] => []
  | c :: rest =>
    if rest.contains '/' then after_last_slash rest
    else if c = '/' then rest else c :: rest

/-- The local `basename` of `process_entry`. -/
def basename (path : String) : String := String.mk (after_last_slash path.data)

/-- The function `add_entry`: append one entry to `entry_list`. Growth of the
buffer is not modelled (an allocation failure ends the process). -/
def add_entry (size : Int) (size_str entry_display : String) (g : Globals) : Globals :=
  { g with entry_list := g.entry_list ++ [⟨size, size_str, entry_display⟩] }

/-- The end of `process_entry`, from "Apply the minimum size threshold" on,
for the values of the locals `size` and `entry_display`: the entry is dropped
below the threshold; otherwise its size is added to `total_size`, the column
is widened to the formatted size if need be, and the entry is appended. -/
def keep_entry (cfg : Config) (size : Int) (entry_display : String) (g : Globals) : Globals :=
  if size < cfg.min_size_threshold then g
  else
    add_entry size (format_size cfg.unit_mode size) entry_display
      { g with
        total_size := off_add g.total_size size
        max_size_length :=
          if (format_size cfg.unit_mode size).length > g.max_size_length then
            (format_size cfg.unit_mode size).length
          else g.max_size_length }

/-- The function `process_entry(path)`, where `sb` is what `lstat(path)`
finds; the result is the new value of the globals, or `none` when the call
of `get_directory_size` has no outcome in the model. -/
def process_entry (cfg : Config) (path : String) (sb : Node) (g : Globals) : Option Globals :=
  if lstat_fails sb then some g
  else if cfg.files_only && (S_ISDIR sb && !S_ISLNK sb) then some g
  else if cfg.directories_only && !(S_ISDIR sb && !S_ISLNK sb) then some g
  else if S_ISLNK sb then
    some (keep_entry cfg (st_size sb) (basename path ++ " -> " ++ readlink sb) g)
  else if S_ISDIR sb && !S_ISLNK sb then
    match get_directory_size path sb with
    | none => none
    | some size => some (keep_entry cfg size (basename path ++ "/") g)
  else if S_ISREG sb then some (keep_entry cfg (st_size sb) (basename path) g)
  else some g

/-- What `opendir` yields on the object at a path: the entries of a readable
directory, reached through symbolic links if need be; `none` on failure. -/
def opendir : Node → Option Entries
  | .dir true es => some es
  | .lnk _ _ p => opendir p
  | _ => none

/-- The status that stands for a run without outcome in the model; no
`exit` produces it. -/
def NO_OUTCOME : Nat := 256

/-- The `readdir` loop of `process_directory` over the entries still to come,
where `self` is the directory at `path` and `all` its entries; the state is
the local `has_entries` and the globals. -/
def process_directory_loop (cfg : Config) (path : String) (self : Node) (all : Entries) :
    Entries → Bool × Globals → Option (Bool × Globals)
  | .nil, st => some st
  | .cons d_name own rest, st =>
    if is_dot_or_dotdot d_name then process_directory_loop cfg path self all rest st
    else
      match process_entry cfg (snprintf_full_path path d_name)
          (lstat_full_path path self all d_name own) st.2 with
      | none => none
      | some g => process_directory_loop cfg path self all rest (true, g)

/-- The function `process_directory(path)` on the object `d` at `path`: either
the process ends with the given status, or the globals are updated. -/
def process_directory (cfg : Config) (path : String) (d : Node) (g : Globals) :
    Except Nat Globals :=
  match opendir d with
  | none => .error EXIT_FAILURE
  | some es =>
    match process_directory_loop cfg path d es es (false, g) with
    | none => .error NO_OUTCOME
    | some st => if st.1 then .ok st.2 else .error EXIT_SUCCESS

/-! ## Reporter: sorting and printing -/

/-- The comparison function `compare_entries`, for the given value of the
global `reverse_sort`. -/
def compare_entries (reverse_sort : Bool) (ea eb : Entry) : Int :=
  if ea.size < eb.size then (if reverse_sort then 1 else -1)
  else if ea.size > eb.size then (if reverse_sort then -1 else 1)
  else 0

/-- The library routine `qsort` with comparison function `cmp`. The C standard
leaves the order of elements that compare equal open; the model takes the
insertion sort, which keeps them in their original order. -/
def qsort (cmp : Entry → Entry → Int) (base : List Entry) : List Entry :=
  List.insertionSort (fun a b => cmp a b ≤ 0) base

/-- The text `printf("%*s", width, str)` writes: `str` right-aligned in a
field of `width` characters, never cut. -/
def pad_left (width : Nat) (str : String) : String :=
  String.mk (List.replicate (width - str.length) ' ') ++ str

/-- The line `printf("%*s %s\n", width, size_str, label)` writes, without the
newline. -/
def printf_row (width : Nat) (size_str label : String) : String :=
  pad_left width size_str ++ " " ++ label

/-- What a run leaves behind: the exit status and the lines on `stdout`. -/
structure Outcome where
  status : Nat
  stdout : List String
deriving DecidableEq, Repr

/-- The collection step of `main` (the `if (S_ISDIR ...)` statement): a real
directory is enumerated, anything else is processed as a single entry. -/
def collect (cfg : Config) (target : String) (sb : Node) : Except Nat Globals :=
  if S_ISDIR sb && !S_ISLNK sb then process_directory cfg target sb Globals.init
  else
    match process_entry cfg target sb Globals.init with
    | none => .error NO_OUTCOME
    | some g => .ok g

/-- The value of `max_size_length` after `main` has measured the total. -/
def column_width (cfg : Config) (g : Globals) : Nat :=
  if (format_size cfg.unit_mode g.total_size).length > g.max_size_length then
    (format_size cfg.unit_mode g.total_size).length
  else g.max_size_length

/-- The rows in the order they are printed: `entry_list` after `qsort`. -/
def rendered (cfg : Config) (g : Globals) : List Entry :=
  qsort (compare_entries cfg.reverse_sort) g.entry_list

/-- The end of `main`, from "Format total size" on: measure the total, sort,
stop silently when nothing was collected, else print the rows and the total
line. -/
def report (cfg : Config) (g : Globals) : Outcome :=
  if (rendered cfg g).length = 0 then ⟨EXIT_SUCCESS, []⟩
  else
    ⟨0, (rendered cfg g).map (fun e => printf_row (column_width cfg g) e.size_str e.entry_display)
        ++ [printf_row (column_width cfg g) (format_size cfg.unit_mode g.total_size) "total"]⟩

/-- The function `main` after option parsing: `cfg` holds the option globals,
`target` is the path and `sb` the object `lstat(target)` finds. -/
def main (cfg : Config) (target : String) (sb : Node) : Outcome :=
  if lstat_fails sb then ⟨EXIT_FAILURE, []⟩
  else
    match collect cfg target sb with
    | .error code => ⟨code, []⟩
    | .ok g => report cfg g

/-! ## The example directory of the specification -/

/-- The directory `D` of the scenarios: file `a` of 500 bytes, file `b` of
2048 bytes and the empty subdirectory `c`, listed by `readdir` after `.` and
`..`. -/
def exampleD : Node :=
  .dir true (.cons "." .noent (.cons ".." .noent
    (.cons "a" (.reg 500) (.cons "b" (.reg 2048)
      (.cons "c" (.dir true (.cons "." .noent (.cons ".." .noent .nil))) .nil)))))

/-- Raw mode, ascending, no filter. -/
def defaultConfig : Config := ⟨false, false, false, false, 0⟩


/-! ## Auxiliary notions for the proofs -/

/-- The bookkeeping relation between the three collection globals: the total
is the `off_t` sum of the listed sizes in list order, every cached size
string is the formatted size, and `max_size_length` is the greatest length of
a cached size string (`0` for an empty list). -/
def Globals.accounted (cfg : Config) (g : Globals) : Prop :=
  g.total_size = (g.entry_list.map Entry.size).foldl off_add 0 ∧
  (∀ e ∈ g.entry_list, e.size_str = format_size cfg.unit_mode e.size) ∧
  (∀ e ∈ g.entry_list, e.size_str.length ≤ g.max_size_length) ∧
  (g.max_size_length = 0 ∨ ∃ e ∈ g.entry_list, e.size_str.length = g.max_size_length)

/-- The size and label that the classification of `process_entry` gives an
entry: `none` for an entry of another type, and for a directory whose size
has no outcome in the model. -/
def size_and_display (path : String) (sb : Node) : Option (Int × String) :=
  if S_ISLNK sb then some (st_size sb, basename path ++ " -> " ++ readlink sb)
  else if S_ISDIR sb && !S_ISLNK sb then
    (get_directory_size path sb).map (fun size => (size, basename path ++ "/"))
  else if S_ISREG sb then some (st_size sb, basename path)
  else none

/-- The record of an entry that survives filtering, as section 4.2 of the
specification describes it: an entry that cannot be stat-ed is skipped, the
type filters come first, entries of other types are skipped, and an entry
whose size is strictly below the threshold is discarded. -/
def surviving_record (cfg : Config) (path : String) (sb : Node) : Option Entry :=
  if lstat_fails sb then none
  else if cfg.files_only && (S_ISDIR sb && !S_ISLNK sb) then none
  else if cfg.directories_only && !(S_ISDIR sb && !S_ISLNK sb) then none
  else
    match size_and_display path sb with
    | none => none
    | some (size, label) =>
      if size < cfg.min_size_threshold then none
      else some ⟨size, format_size cfg.unit_mode size, label⟩

/-- The paths `main` hands to `process_entry`, each with the object `lstat`
finds there: for a target that is a real directory one path for every
non-pseudo entry, as built in `full_path`, and the target itself
otherwise. -/
def candidates (target : String) (sb : Node) : List (String × Node) :=
  if S_ISDIR sb && !S_ISLNK sb then
    match opendir sb with
    | none => []
    | some es =>
      es.children.map
        (fun e => (snprintf_full_path target e.1, lstat_full_path target sb es e.1 e.2))
  else [(target, sb)]

mutual
/-- Every path that `get_directory_size(path)` builds below the directory
fits into `full_path` uncut. -/
def paths_fit (path : String) : Node → Bool
  | .dir true es => entries_fit path es
  | _ => true
/-- Every path built for these entries of the directory at `path`, and below
them, fits into `full_path` uncut. -/
def entries_fit (path : String) : Entries → Bool
  | .nil => true
  | .cons d_name x rest =>
    (is_dot_or_dotdot d_name ||
      (decide (path.length + 1 + d_name.length ≤ PATH_MAX - 1) &&
        paths_fit (snprintf_full_path path d_name) x)) &&
    entries_fit path rest
end

mutual
/-- No object counted below the directory has a negative `st_size`. -/
def sizes_nonneg : Node → Bool
  | .dir true es => entries_nonneg es
  | .lnk s _ _ => decide (0 ≤ s)
  | .reg s => decide (0 ≤ s)
  | .other s => decide (0 ≤ s)
  | _ => true
/-- No object counted among or below these entries has a negative
`st_size`. -/
def entries_nonneg : Entries → Bool
  | .nil => true
  | .cons d_name x rest => (is_dot_or_dotdot d_name || sizes_nonneg x) && entries_nonneg rest
end

/-- A path of 4090 characters: a name of four characters below it fills
`full_path`, a name of five is cut. -/
def longPath : String := String.mk (List.replicate 4090 'p')

/-- Two files of `2^62` bytes each. -/
def twoHugeFiles : Entries :=
  .cons "a" (.reg 4611686018427387904) (.cons "b" (.reg 4611686018427387904) .nil)

/-- The file `abcd` of 100 bytes and the file `abcde` of 1 byte. -/
def prefixPair : Entries :=
  .cons "abcd" (.reg 100) (.cons "abcde" (.reg 1) .nil)

/-- The number text of unit mode as section 4.3 of the specification words
it: the value rendered with three fraction digits, the trailing zero digits
of the fraction removed, the decimal point removed when no fraction digit
remains, the integer part left as it is. -/
def spec_number_text (value : Double) : List Char :=
  let int_part := (if value.num < 0 then ['-'] else []) ++ decimal (value.thousandths / 1000)
  let fraction := [Nat.digitChar (value.thousandths % 1000 / 100),
    Nat.digitChar (value.thousandths % 100 / 10), Nat.digitChar (value.thousandths % 10)]
  let kept := (fraction.reverse.dropWhile (fun c => c == '0')).reverse
  if kept.isEmpty then int_part else int_part ++ '.' :: kept

/-- The unit-mode text of a size as the specification words it: the scaled
value as `spec_number_text`, immediately followed by the unit symbol. -/
def spec_unit_text (size : Int) : String :=
  String.mk (spec_number_text (scale size).1) ++ units.getD (scale size).2 ""

/-! # Theorems -/

/-! ## Arithmetic of `off_t` -/

theorem off_add_zero_left (b : Int) : off_add 0 b = b := by
  unfold off_add OFF_MAX OFF_MIN
  split_ifs <;> omega

/-- Non-negative values whose exact sum is an `off_t` value add exactly. -/
theorem off_add_exact (a b : Int) (ha : 0 ≤ a) (hb : 0 ≤ b) (h : a + b ≤ OFF_MAX) :
    off_add a b = a + b := by
  unfold off_add OFF_MAX OFF_MIN at *
  split_ifs <;> omega

theorem foldl_off_add_exact :
    ∀ (l : List Int) (acc : Int), 0 ≤ acc → (∀ x ∈ l, 0 ≤ x) → acc + l.sum ≤ OFF_MAX →
      l.foldl off_add acc = acc + l.sum
  | [], acc, _, _, _ => by simp
  | x :: l, acc, hacc, hnn, hmax => by
    have hx : 0 ≤ x := hnn x (by simp)
    have hl : ∀ y ∈ l, 0 ≤ y := fun y hy => hnn y (by simp [hy])
    have hs : 0 ≤ l.sum := List.sum_nonneg hl
    rw [List.sum_cons] at hmax
    rw [List.foldl_cons, off_add_exact acc x hacc hx (by omega),
      foldl_off_add_exact l (acc + x) (by omega) hl (by omega), List.sum_cons]
    omega

/-! ## Size aggregation agrees with the specified size function -/

mutual
theorem computeSize_nonneg : ∀ n : Node, sizes_nonneg n = true → 0 ≤ computeSize n
  | .noent, _ => by simp [computeSize]
  | .reg s, h => by simpa [computeSize, sizes_nonneg] using h
  | .other s, h => by simpa [computeSize, sizes_nonneg] using h
  | .lnk s _ _, h => by simpa [computeSize, sizes_nonneg] using h
  | .dir false _, _ => by simp [computeSize]
  | .dir true es, h => by
    rw [computeSize]
    rw [sizes_nonneg] at h
    exact computeSizeSum_nonneg es h
theorem computeSizeSum_nonneg : ∀ es : Entries, entries_nonneg es = true → 0 ≤ computeSizeSum es
  | .nil, _ => by simp [computeSizeSum]
  | .cons d_name x rest, h => by
    rw [entries_nonneg, Bool.and_eq_true, Bool.or_eq_true] at h
    have ih := computeSizeSum_nonneg rest h.2
    rw [computeSizeSum]
    by_cases hd : is_dot_or_dotdot d_name = true
    · rw [if_pos hd]; exact ih
    · rw [if_neg hd]
      have hx : sizes_nonneg x = true := by
        rcases h.1 with h1 | h1
        · exact absurd h1 hd
        · exact h1
      have := computeSize_nonneg x hx
      omega
end

mutual
theorem get_directory_size_eq_computeSize :
    ∀ (n : Node) (path : String), S_ISDIR n = true → paths_fit path n = true →
      sizes_nonneg n = true → computeSize n ≤ OFF_MAX →
      get_directory_size path n = some (computeSize n)
  | .dir true es, path, _, hfit, hnn, hmax => by
    rw [paths_fit] at hfit
    rw [sizes_nonneg] at hnn
    rw [computeSize] at hmax
    rw [get_directory_size, computeSize,
      get_directory_size_loop_eq es path es 0 hfit hnn le_rfl (by omega)]
    simp
  | .dir false _, _, _, _, _, _ => by rw [get_directory_size, computeSize]
  | .noent, _, h, _, _, _ => by simp [S_ISDIR] at h
  | .reg _, _, h, _, _, _ => by simp [S_ISDIR] at h
  | .other _, _, h, _, _, _ => by simp [S_ISDIR] at h
  | .lnk _ _ _, _, h, _, _, _ => by simp [S_ISDIR] at h
theorem get_directory_size_loop_eq :
    ∀ (es : Entries) (path : String) (all : Entries) (dir_size : Int),
      entries_fit path es = true → entries_nonneg es = true → 0 ≤ dir_size →
      dir_size + computeSizeSum es ≤ OFF_MAX →
      get_directory_size_loop path all es dir_size = some (dir_size + computeSizeSum es)
  | .nil, _, _, _, _, _, _, _ => by simp [get_directory_size_loop, computeSizeSum]
  | .cons d_name own rest, path, all, dir_size, hfit, hnn, hacc, hmax => by
    rw [entries_fit, Bool.and_eq_true, Bool.or_eq_true] at hfit
    rw [entries_nonneg, Bool.and_eq_true, Bool.or_eq_true] at hnn
    rw [computeSizeSum] at hmax
    have hrest := computeSizeSum_nonneg rest hnn.2
    by_cases hd : is_dot_or_dotdot d_name = true
    · rw [if_pos hd] at hmax
      have ih := get_directory_size_loop_eq rest path all dir_size hfit.2 hnn.2 hacc hmax
      rw [computeSizeSum, if_pos hd, ← ih]
      cases own <;> rw [get_directory_size_loop, if_pos hd]
    · rw [if_neg hd] at hmax
      have hown : sizes_nonneg own = true := by
        rcases hnn.1 with h1 | h1
        · exact absurd h1 hd
        · exact h1
      have hf : path.length + 1 + d_name.length ≤ PATH_MAX - 1 ∧
          paths_fit (snprintf_full_path path d_name) own = true := by
        rcases hfit.1 with h1 | h1
        · exact absurd h1 hd
        · simpa using h1
      have hpos := computeSize_nonneg own hown
      have hstep : ∀ v : Int, v = computeSize own →
          get_directory_size_loop path all rest (off_add dir_size v) =
            some (dir_size + computeSizeSum (.cons d_name own rest)) := by
        intro v hv
        subst hv
        rw [off_add_exact dir_size _ hacc hpos (by omega),
          get_directory_size_loop_eq rest path all _ hfit.2 hnn.2 (by omega) (by omega),
          computeSizeSum, if_neg hd]
        congr 1
        omega
      cases own with
      | noent =>
        rw [get_directory_size_loop, if_neg hd, if_pos hf.1]
        rw [get_directory_size_loop_eq rest path all dir_size hfit.2 hnn.2 hacc
          (by simp [computeSize] at hmax; exact hmax)]
        simp [computeSizeSum, hd, computeSize]
      | reg s =>
        rw [get_directory_size_loop, if_neg hd, if_pos hf.1]
        exact hstep s (by rw [computeSize])
      | lnk s t p =>
        rw [get_directory_size_loop, if_neg hd, if_pos hf.1]
        exact hstep s (by rw [computeSize])
      | other s =>
        rw [get_directory_size_loop, if_neg hd, if_pos hf.1]
        exact hstep s (by rw [computeSize])
      | dir r es =>
        have ih := get_directory_size_eq_computeSize (.dir r es) (snprintf_full_path path d_name)
          rfl hf.2 hown (by omega)
        rw [get_directory_size_loop, if_neg hd, if_pos hf.1]
        simp only [ih]
        exact hstep _ rfl
end

theorem computeSizeSum_eq_sum :
    ∀ es : Entries, computeSizeSum es = (es.children.map (fun e => computeSize e.2)).sum
  | .nil => by simp [computeSizeSum, Entries.children, Entries.toList]
  | .cons d_name x rest => by
    have ih := computeSizeSum_eq_sum rest
    rw [computeSizeSum, ih]
    by_cases h : is_dot_or_dotdot d_name = true
    · simp [Entries.children, Entries.toList, h]
    · simp [Entries.children, Entries.toList, h]

/-- The structural definition of `get_directory_size` is the source's
`opendir` test followed by the `readdir` loop. -/
theorem get_directory_size_opendir (path : String) :
    ∀ n : Node, get_directory_size path n =
      match opendir n with
      | none => some 0
      | some es => get_directory_size_loop path es es 0
  | .noent => by simp [get_directory_size, opendir]
  | .reg _ => by simp [get_directory_size, opendir]
  | .other _ => by simp [get_directory_size, opendir]
  | .lnk _ _ p => by
    rw [get_directory_size, opendir]; exact get_directory_size_opendir path p
  | .dir true _ => by simp [get_directory_size, opendir]
  | .dir false _ => by simp [get_directory_size, opendir]

theorem get_directory_size_loop_at_limit (path : String) (all : Entries)
    (h : PATH_MAX - 1 ≤ path.length) :
    ∀ (es : Entries) (dir_size : Int), (es.children ≠ [] → all.children ≠ []) →
      get_directory_size_loop path all es dir_size =
        if es.children.isEmpty then some dir_size else none
  | .nil, dir_size, _ => by
    simp [get_directory_size_loop, Entries.children, Entries.toList]
  | .cons d_name own rest, dir_size, hsub => by
    by_cases hd : is_dot_or_dotdot d_name = true
    · have hc : (Entries.cons d_name own rest).children = rest.children := by
        simp [Entries.children, Entries.toList, hd]
      have ih := get_directory_size_loop_at_limit path all h rest dir_size
        (fun hne => hsub (by rw [hc]; exact hne))
      rw [hc, ← ih]
      cases own <;> rw [get_directory_size_loop, if_pos hd]
    · have hc : (Entries.cons d_name own rest).children ≠ [] := by
        simp [Entries.children, Entries.toList, hd]
      have hall : all.children.isEmpty = false := by
        have := hsub hc
        cases hch : all.children with
        | nil => exact absurd hch this
        | cons _ _ => rfl
      have hnf : ¬ path.length + 1 + d_name.length ≤ PATH_MAX - 1 := by omega
      have hl : lstat_full_path path (.dir true all) all d_name own = .dir true all := by
        unfold lstat_full_path
        rw [if_neg hnf, if_pos (by omega)]
      have hres : (if (Entries.cons d_name own rest).children.isEmpty then some dir_size
          else none) = none := by
        cases hch : (Entries.cons d_name own rest).children with
        | nil => exact absurd hch hc
        | cons _ _ => rfl
      rw [hres]
      cases own <;>
        simp [get_directory_size_loop, hd, hnf, hl, get_directory_size_cut, hall]

/-- At a path that fills `full_path`, `get_directory_size` of a directory is
what `get_directory_size_cut` says. -/
theorem get_directory_size_at_limit (path : String) (r : Bool) (es : Entries)
    (h : PATH_MAX - 1 ≤ path.length) :
    get_directory_size path (.dir r es) = get_directory_size_cut (.dir r es) := by
  cases r with
  | false => simp [get_directory_size, get_directory_size_cut]
  | true =>
    rw [get_directory_size, get_directory_size_cut,
      get_directory_size_loop_at_limit path es h es 0 (fun hne => hne)]

theorem longPath_length : longPath.length = 4090 := by
  unfold longPath
  rw [String.length_mk]
  exact List.length_replicate _ _

/-- Below a path of 4090 characters the name `abcde` is cut to `abcd`, and
the 100 bytes of `abcd` are counted twice. -/
theorem get_directory_size_prefixPair :
    get_directory_size longPath (.dir true prefixPair) = some 200 := by
  have h4 : "abcd".length = 4 := by decide
  have h5 : "abcde".length = 5 := by decide
  have hd4 : is_dot_or_dotdot "abcd" = false := by decide
  have hd5 : is_dot_or_dotdot "abcde" = false := by decide
  have hcut : String.mk ("abcde".data.take (PATH_MAX - 1 - (longPath.length + 1))) = "abcd" := by
    rw [longPath_length]; decide
  have hl : lstat_full_path longPath (.dir true prefixPair) prefixPair "abcde" (.reg 1) =
      .reg 100 := by
    unfold lstat_full_path
    rw [hcut, longPath_length, h5, if_neg (by decide), if_neg (by decide), if_neg (by decide),
      if_neg (by decide)]
    unfold prefixPair
    rw [Entries.lookup, if_pos rfl]
  rw [get_directory_size]
  conv => lhs; arg 3; unfold prefixPair
  rw [get_directory_size_loop, hd4, longPath_length, h4, if_neg (by decide), if_pos (by decide)]
  rw [get_directory_size_loop, hd5, longPath_length, h5, if_neg (by decide), if_neg (by decide)]
  rw [hl]
  simp only
  rw [get_directory_size_loop]
  decide

/-- C1 (as stated, refuted): a directory that `opendir` cannot open and that
holds the 5-byte file `a` gets size `0`, not `5`; a directory with two files
of `2^62` bytes gets the wrapped size `-2^63`, not `2^63`; and below a path of
4090 characters the directory with `abcd` (100 bytes) and `abcde` (1 byte)
gets size `200`, not `101`, because the path of `abcde` is cut to that of
`abcd`. -/
theorem get_directory_size_ne_sum :
    (get_directory_size "D" (.dir false (.cons "a" (.reg 5) .nil)) = some 0 ∧
      ((Entries.cons "a" (.reg 5) .nil).children.map (fun e => computeSize e.2)).sum = 5) ∧
    (get_directory_size "D" (.dir true twoHugeFiles) = some (-9223372036854775808) ∧
      (twoHugeFiles.children.map (fun e => computeSize e.2)).sum = 9223372036854775808) ∧
    (get_directory_size longPath (.dir true prefixPair) = some 200 ∧
      (prefixPair.children.map (fun e => computeSize e.2)).sum = 101) :=
  ⟨by decide, by decide, get_directory_size_prefixPair, by decide⟩

/-- C1 (amended): for every directory that `opendir` can open, in which every
path built below it fits into `full_path` uncut, no counted `st_size` is
negative and the sizes sum to at most `2^63 - 1`, `get_directory_size` is the
sum of `computeSize` over the direct children other than `.` and `..`, where
`computeSize` of a symbolic link is the link's own size whatever it points
to; a directory that cannot be opened has size `0`; and under the same
conditions the code agrees with the specified function on the directory,
readable or not. -/
theorem get_directory_size_sum_children (path : String) (es : Entries)
    (hfit : paths_fit path (.dir true es) = true)
    (hnn : sizes_nonneg (.dir true es) = true)
    (hmax : computeSize (.dir true es) ≤ OFF_MAX) :
    get_directory_size path (.dir true es) =
      some ((es.children.map (fun e => computeSize e.2)).sum) ∧
    get_directory_size path (.dir false es) = some 0 ∧
    (∀ r : Bool, get_directory_size path (.dir r es) = some (computeSize (.dir r es))) := by
  have h := get_directory_size_eq_computeSize (.dir true es) path rfl hfit hnn hmax
  refine ⟨?_, ?_, ?_⟩
  · rw [h, computeSize, computeSizeSum_eq_sum]
  · rw [get_directory_size]
  · intro r
    cases r with
    | true => exact h
    | false => rw [get_directory_size, computeSize]

/-- C1 (amended), at the example directory: its size is 2548. -/
theorem get_directory_size_sum_children_witness :
    get_directory_size "D" exampleD = some 2548 :=
  (get_directory_size_sum_children "D"
    (.cons "." .noent (.cons ".." .noent
      (.cons "a" (.reg 500) (.cons "b" (.reg 2048)
        (.cons "c" (.dir true (.cons "." .noent (.cons ".." .noent .nil))) .nil)))))
    (by decide) (by decide) (by decide)).1.trans (by decide)

/-! ## Sorting -/

theorem compare_entries_le_zero (rev : Bool) (a b : Entry) :
    compare_entries rev a b ≤ 0 ↔ if rev then b.size ≤ a.size else a.size ≤ b.size := by
  unfold compare_entries
  cases rev <;> simp <;> split_ifs <;> omega

theorem qsort_perm (cmp : Entry → Entry → Int) (l : List Entry) : (qsort cmp l).Perm l :=
  List.perm_insertionSort _ l

theorem qsort_compare_entries_pairwise (rev : Bool) (l : List Entry) :
    (qsort (compare_entries rev) l).Pairwise
      (fun a b => if rev then b.size ≤ a.size else a.size ≤ b.size) := by
  have tot : IsTotal Entry (fun a b => compare_entries rev a b ≤ 0) :=
    ⟨fun a b => by
      simp only [compare_entries_le_zero]
      cases rev <;> simp <;> omega⟩
  have tr : IsTrans Entry (fun a b => compare_entries rev a b ≤ 0) :=
    ⟨fun a b c => by
      simp only [compare_entries_le_zero]
      cases rev <;> simp <;> omega⟩
  have h := List.sorted_insertionSort (fun a b => compare_entries rev a b ≤ 0) l
  unfold qsort
  exact List.Pairwise.imp (fun {a b} hab => (compare_entries_le_zero rev a b).mp hab) h

/-- C3: after `qsort` with `compare_entries` the rendered rows are a
permutation of the collected records, and any two adjacent rows `i`, `i+1`
have `size[i] ≤ size[i+1]` when `reverse_sort` is off and
`size[i] ≥ size[i+1]` when it is on. The order of sizes does not depend on
the sorting algorithm: any list whose adjacent elements are in order for
`compare_entries` has its adjacent sizes in that order. -/
theorem rendered_sorted_perm (cfg : Config) (g : Globals) :
    (rendered cfg g).Perm g.entry_list ∧
    (∀ (i : Nat) (h : i + 1 < (rendered cfg g).length),
      (cfg.reverse_sort = false →
        ((rendered cfg g).get ⟨i, by omega⟩).size ≤ ((rendered cfg g).get ⟨i + 1, h⟩).size) ∧
      (cfg.reverse_sort = true →
        ((rendered cfg g).get ⟨i, by omega⟩).size ≥ ((rendered cfg g).get ⟨i + 1, h⟩).size)) ∧
    (∀ ys : List Entry,
      List.Chain' (fun a b => compare_entries cfg.reverse_sort a b ≤ 0) ys →
      List.Chain' (fun a b => if cfg.reverse_sort then b.size ≤ a.size else a.size ≤ b.size)
        ys) := by
  refine ⟨qsort_perm _ _, ?_, ?_⟩
  · intro i h
    have hp := qsort_compare_entries_pairwise cfg.reverse_sort g.entry_list
    have := (List.pairwise_iff_get.mp hp) ⟨i, by unfold rendered at h; omega⟩ ⟨i + 1, h⟩
      (by simp [Fin.lt_def])
    unfold rendered
    constructor
    · intro hr; simpa [hr] using this
    · intro hr; simpa [hr] using this
  · intro ys hys
    exact List.Chain'.imp (fun {a b} hab => (compare_entries_le_zero _ a b).mp hab) hys

/-! ## The collection pass -/

/-- Either `keep_entry` leaves the globals alone, or it appends the record of
the entry, adds its size and widens the column. -/
theorem keep_entry_eq (cfg : Config) (size : Int) (label : String) (g : Globals) :
    keep_entry cfg size label g =
      if size < cfg.min_size_threshold then g
      else
        ⟨g.entry_list ++ [⟨size, format_size cfg.unit_mode size, label⟩],
          off_add g.total_size size,
          if (format_size cfg.unit_mode size).length > g.max_size_length then
            (format_size cfg.unit_mode size).length
          else g.max_size_length⟩ := by
  unfold keep_entry
  split_ifs <;> rfl

theorem accounted_init (cfg : Config) : Globals.init.accounted cfg := by
  simp [Globals.accounted, Globals.init]

theorem keep_entry_accounted (cfg : Config) (size : Int) (label : String) (g : Globals)
    (h : g.accounted cfg) : (keep_entry cfg size label g).accounted cfg := by
  rw [keep_entry_eq]
  by_cases hlt : size < cfg.min_size_threshold
  · rw [if_pos hlt]; exact h
  · rw [if_neg hlt]
    obtain ⟨ht, hs, hm, hx⟩ := h
    refine ⟨?_, ?_, ?_, ?_⟩
    · simp [ht, List.foldl_append]
    · intro e he
      simp only [List.mem_append, List.mem_singleton] at he
      rcases he with he | he
      · exact hs e he
      · subst he; rfl
    · intro e he
      simp only [List.mem_append, List.mem_singleton] at he
      rcases he with he | he
      · have := hm e he
        simp only
        split_ifs <;> omega
      · subst he
        simp only
        split_ifs <;> omega
    · simp only
      split_ifs with hgt
      · exact Or.inr ⟨⟨size, format_size cfg.unit_mode size, label⟩, by simp, rfl⟩
      · rcases hx with hx | ⟨e, he, hx⟩
        · exact Or.inl hx
        · exact Or.inr ⟨e, by simp [he], hx⟩

/-- When `process_entry` returns, the globals are untouched or one entry has
been kept. -/
theorem process_entry_some (cfg : Config) (path : String) (sb : Node) (g g1 : Globals)
    (h : process_entry cfg path sb g = some g1) :
    g1 = g ∨ ∃ size label, g1 = keep_entry cfg size label g := by
  unfold process_entry at h
  split_ifs at h
  · exact Or.inl (Option.some.inj h).symm
  · exact Or.inl (Option.some.inj h).symm
  · exact Or.inl (Option.some.inj h).symm
  · exact Or.inr ⟨_, _, (Option.some.inj h).symm⟩
  · cases hg : get_directory_size path sb with
    | none => rw [hg] at h; cases h
    | some size =>
      rw [hg] at h
      exact Or.inr ⟨_, _, (Option.some.inj h).symm⟩
  · exact Or.inr ⟨_, _, (Option.some.inj h).symm⟩
  · exact Or.inl (Option.some.inj h).symm

theorem process_entry_accounted (cfg : Config) (path : String) (sb : Node) (g g1 : Globals)
    (h : process_entry cfg path sb g = some g1) (hg : g.accounted cfg) :
    g1.accounted cfg := by
  rcases process_entry_some cfg path sb g g1 h with h0 | ⟨size, label, h1⟩
  · rw [h0]; exact hg
  · rw [h1]; exact keep_entry_accounted cfg size label g hg

theorem process_directory_loop_accounted (cfg : Config) (path : String) (self : Node)
    (all : Entries) :
    ∀ (es : Entries) (st st1 : Bool × Globals),
      process_directory_loop cfg path self all es st = some st1 → st.2.accounted cfg →
      st1.2.accounted cfg
  | .nil, st, st1, h, hacc => by
    rw [process_directory_loop] at h
    cases h; exact hacc
  | .cons d_name own rest, st, st1, h, hacc => by
    rw [process_directory_loop] at h
    by_cases hd : is_dot_or_dotdot d_name = true
    · rw [if_pos hd] at h
      exact process_directory_loop_accounted cfg path self all rest st st1 h hacc
    · rw [if_neg hd] at h
      cases hp : process_entry cfg (snprintf_full_path path d_name)
          (lstat_full_path path self all d_name own) st.2 with
      | none => rw [hp] at h; cases h
      | some g =>
        rw [hp] at h
        exact process_directory_loop_accounted cfg path self all rest (true, g) st1 h
          (process_entry_accounted cfg _ _ st.2 g hp hacc)

theorem collect_accounted (cfg : Config) (target : String) (sb : Node) (g : Globals)
    (h : collect cfg target sb = .ok g) : g.accounted cfg := by
  unfold collect at h
  by_cases hdir : (S_ISDIR sb && !S_ISLNK sb) = true
  · rw [if_pos hdir] at h
    unfold process_directory at h
    cases hop : opendir sb with
    | none => rw [hop] at h; cases h
    | some es =>
      rw [hop] at h
      simp only at h
      cases hl : process_directory_loop cfg target sb es es (false, Globals.init) with
      | none => rw [hl] at h; cases h
      | some st =>
        rw [hl] at h
        simp only at h
        split_ifs at h
        cases h
        exact process_directory_loop_accounted cfg target sb es es _ st hl (accounted_init cfg)
  · rw [if_neg hdir] at h
    cases hp : process_entry cfg target sb Globals.init with
    | none => rw [hp] at h; cases h
    | some g1 =>
      rw [hp] at h
      cases h
      exact process_entry_accounted cfg target sb _ g hp (accounted_init cfg)

theorem collect_noent (cfg : Config) (target : String) :
    collect cfg target .noent = .ok Globals.init := by
  simp [collect, S_ISDIR, process_entry, lstat_fails]

/-! ## The listed records are the surviving records of the candidates -/

theorem keep_entry_entry_list (cfg : Config) (size : Int) (label : String) (g : Globals) :
    (keep_entry cfg size label g).entry_list =
      g.entry_list ++
        (if size < cfg.min_size_threshold then none
          else some (⟨size, format_size cfg.unit_mode size, label⟩ : Entry)).toList := by
  rw [keep_entry_eq]
  split_ifs <;> simp

theorem process_entry_entry_list (cfg : Config) (path : String) (sb : Node) (g g1 : Globals)
    (h : process_entry cfg path sb g = some g1) :
    g1.entry_list = g.entry_list ++ (surviving_record cfg path sb).toList := by
  unfold process_entry at h
  unfold surviving_record size_and_display
  by_cases h1 : lstat_fails sb = true
  · rw [if_pos h1] at h; rw [if_pos h1]; cases h; simp
  rw [if_neg h1] at h; rw [if_neg h1]
  by_cases h2 : (cfg.files_only && (S_ISDIR sb && !S_ISLNK sb)) = true
  · rw [if_pos h2] at h; rw [if_pos h2]; cases h; simp
  rw [if_neg h2] at h; rw [if_neg h2]
  by_cases h3 : (cfg.directories_only && !(S_ISDIR sb && !S_ISLNK sb)) = true
  · rw [if_pos h3] at h; rw [if_pos h3]; cases h; simp
  rw [if_neg h3] at h; rw [if_neg h3]
  by_cases h4 : S_ISLNK sb = true
  · rw [if_pos h4] at h; rw [if_pos h4]; cases h
    exact keep_entry_entry_list _ _ _ _
  rw [if_neg h4] at h; rw [if_neg h4]
  by_cases h5 : (S_ISDIR sb && !S_ISLNK sb) = true
  · rw [if_pos h5] at h; rw [if_pos h5]
    cases hg : get_directory_size path sb with
    | none => rw [hg] at h; cases h
    | some size =>
      rw [hg] at h; cases h
      exact keep_entry_entry_list _ _ _ _
  rw [if_neg h5] at h; rw [if_neg h5]
  by_cases h6 : S_ISREG sb = true
  · rw [if_pos h6] at h; rw [if_pos h6]; cases h
    exact keep_entry_entry_list _ _ _ _
  · rw [if_neg h6] at h; rw [if_neg h6]; cases h; simp

theorem process_directory_loop_entry_list (cfg : Config) (path : String) (self : Node)
    (all : Entries) :
    ∀ (es : Entries) (st st1 : Bool × Globals),
      process_directory_loop cfg path self all es st = some st1 →
      st1.2.entry_list =
        st.2.entry_list ++
          (es.children.map
            (fun e => (snprintf_full_path path e.1, lstat_full_path path self all e.1 e.2))).filterMap
            (fun c => surviving_record cfg c.1 c.2)
  | .nil, st, st1, h => by
    rw [process_directory_loop] at h
    cases h
    simp [Entries.children, Entries.toList]
  | .cons d_name own rest, st, st1, h => by
    rw [process_directory_loop] at h
    by_cases hd : is_dot_or_dotdot d_name = true
    · rw [if_pos hd] at h
      rw [process_directory_loop_entry_list cfg path self all rest st st1 h]
      simp [Entries.children, Entries.toList, hd]
    · rw [if_neg hd] at h
      cases hp : process_entry cfg (snprintf_full_path path d_name)
          (lstat_full_path path self all d_name own) st.2 with
      | none => rw [hp] at h; cases h
      | some g =>
        rw [hp] at h
        rw [process_directory_loop_entry_list cfg path self all rest (true, g) st1 h]
        simp only
        rw [process_entry_entry_list cfg _ _ st.2 g hp]
        cases hrec : surviving_record cfg (snprintf_full_path path d_name)
            (lstat_full_path path self all d_name own) <;>
          simp [Entries.children, Entries.toList, hd, hrec]

/-- The list collected by `main` holds exactly the surviving records of the
candidates, in enumeration order. -/
theorem collect_entry_list (cfg : Config) (target : String) (sb : Node) (g : Globals)
    (h : collect cfg target sb = .ok g) :
    g.entry_list = (candidates target sb).filterMap (fun c => surviving_record cfg c.1 c.2) := by
  unfold collect at h
  unfold candidates
  by_cases hdir : (S_ISDIR sb && !S_ISLNK sb) = true
  · rw [if_pos hdir] at h
    rw [if_pos hdir]
    unfold process_directory at h
    cases hop : opendir sb with
    | none => rw [hop] at h; cases h
    | some es =>
      rw [hop] at h
      simp only at h
      cases hl : process_directory_loop cfg target sb es es (false, Globals.init) with
      | none => rw [hl] at h; cases h
      | some st =>
        rw [hl] at h
        simp only at h
        split_ifs at h
        cases h
        rw [process_directory_loop_entry_list cfg target sb es es _ st hl]
        simp [Globals.init]
  · rw [if_neg hdir] at h
    rw [if_neg hdir]
    cases hp : process_entry cfg target sb Globals.init with
    | none => rw [hp] at h; cases h
    | some g1 =>
      rw [hp] at h
      cases h
      rw [process_entry_entry_list cfg target sb _ g hp]
      cases hrec : surviving_record cfg target sb <;> simp [Globals.init, hrec]

theorem surviving_record_size (cfg : Config) (path : String) (sb : Node) (e : Entry)
    (h : surviving_record cfg path sb = some e) : cfg.min_size_threshold ≤ e.size := by
  unfold surviving_record at h
  split_ifs at h
  cases hsd : size_and_display path sb with
  | none => rw [hsd] at h; cases h
  | some p =>
    obtain ⟨size, label⟩ := p
    rw [hsd] at h
    simp only at h
    split_ifs at h with h4
    cases h
    simpa using h4

theorem surviving_record_files_only (cfg : Config) (path : String) (sb : Node) (e : Entry)
    (hflag : cfg.files_only = true) (h : surviving_record cfg path sb = some e) :
    (S_ISDIR sb && !S_ISLNK sb) = false := by
  unfold surviving_record at h
  rw [hflag] at h
  split_ifs at h with h1 h2
  simpa using h2

theorem surviving_record_directories_only (cfg : Config) (path : String) (sb : Node)
    (e : Entry) (hflag : cfg.directories_only = true)
    (h : surviving_record cfg path sb = some e) :
    (S_ISDIR sb && !S_ISLNK sb) = true := by
  unfold surviving_record at h
  rw [hflag] at h
  split_ifs at h with h1 h2 h3
  simpa using h3

/-- With a non-negative threshold no listed size is negative. -/
theorem collect_sizes_nonneg (cfg : Config) (target : String) (sb : Node) (g : Globals)
    (h : collect cfg target sb = .ok g) (hthr : 0 ≤ cfg.min_size_threshold) :
    ∀ e ∈ g.entry_list, 0 ≤ e.size := by
  intro e he
  rw [collect_entry_list cfg target sb g h, List.mem_filterMap] at he
  obtain ⟨c, _, hc⟩ := he
  exact le_trans hthr (surviving_record_size cfg c.1 c.2 e hc)

/-! ## The report -/

theorem rendered_init (cfg : Config) : rendered cfg Globals.init = [] := by
  simp [rendered, qsort, Globals.init]

theorem rendered_sum (cfg : Config) (g : Globals) :
    ((rendered cfg g).map Entry.size).sum = (g.entry_list.map Entry.size).sum :=
  ((qsort_perm _ g.entry_list).map Entry.size).sum_eq

theorem mem_rendered (cfg : Config) (g : Globals) (e : Entry) :
    e ∈ rendered cfg g ↔ e ∈ g.entry_list :=
  (qsort_perm _ g.entry_list).mem_iff

/-- When the collection step ends normally, `main` prints what `report`
prints. -/
theorem main_of_collect_ok (cfg : Config) (target : String) (sb : Node) (g : Globals)
    (h : collect cfg target sb = .ok g) (hne : rendered cfg g ≠ []) :
    main cfg target sb = report cfg g := by
  have hl : lstat_fails sb = false := by
    cases sb <;> simp [lstat_fails]
    rw [collect_noent] at h
    cases h
    exact hne (rendered_init cfg)
  unfold main
  rw [hl, h]
  simp

theorem pad_left_length (width : Nat) (str : String) (h : str.length ≤ width) :
    (pad_left width str).length = width := by
  unfold pad_left
  rw [String.length_append, String.length_mk, List.length_replicate]
  omega

theorem pad_left_self (str : String) : pad_left str.length str = str := by
  unfold pad_left
  simp

set_option maxRecDepth 8000 in
/-- C2 (as stated, refuted): for a directory with two files of `2^62` bytes
the total line shows `-2^63`, which is not the sum `2^63` of the two listed
sizes. -/
theorem total_line_wraps :
    main defaultConfig "D" (.dir true twoHugeFiles) =
      ⟨0, [" 4611686018427387904 a", " 4611686018427387904 b",
        "-9223372036854775808 total"]⟩ ∧
    (4611686018427387904 : Int) + 4611686018427387904 ≠ -9223372036854775808 := by
  decide

/-- C2 (amended): for every configuration with a non-negative threshold and
every target, whenever rows are printed and the sum of the listed sizes is at
most `2^63 - 1`, the output of `main` is the row of each collected record, in
sorted order, followed by a total line whose size field is the formatted sum
of the sizes of exactly those rows; the running total `total_size` is that
sum, whatever the unit mode, sort direction, type filter and threshold, and
it is the same before and after sorting. Without the condition on the sum,
`total_size` is the `off_t` sum of the listed sizes, taken in list order. -/
theorem total_line_sums_rendered (cfg : Config) (target : String) (sb : Node) (g : Globals)
    (h : collect cfg target sb = .ok g) (hne : rendered cfg g ≠ [])
    (hthr : 0 ≤ cfg.min_size_threshold)
    (hmax : (g.entry_list.map Entry.size).sum ≤ OFF_MAX) :
    main cfg target sb =
      ⟨0, (rendered cfg g).map
            (fun e => printf_row (column_width cfg g) e.size_str e.entry_display) ++
          [printf_row (column_width cfg g)
            (format_size cfg.unit_mode ((rendered cfg g).map Entry.size).sum) "total"]⟩ ∧
    g.total_size = ((rendered cfg g).map Entry.size).sum ∧
    g.total_size = (g.entry_list.map Entry.size).sum ∧
    g.total_size = (g.entry_list.map Entry.size).foldl off_add 0 := by
  have hacc := collect_accounted cfg target sb g h
  have hnn := collect_sizes_nonneg cfg target sb g h hthr
  have hexact : g.total_size = (g.entry_list.map Entry.size).sum := by
    rw [hacc.1, foldl_off_add_exact _ 0 le_rfl
      (by intro x hx; rw [List.mem_map] at hx; obtain ⟨e, he, rfl⟩ := hx; exact hnn e he)
      (by omega)]
    omega
  have hsum : g.total_size = ((rendered cfg g).map Entry.size).sum := by
    rw [rendered_sum]; exact hexact
  refine ⟨?_, hsum, hexact, hacc.1⟩
  rw [main_of_collect_ok cfg target sb g h hne, report, ← hsum]
  have : (rendered cfg g).length ≠ 0 := by
    intro h0; exact hne (List.length_eq_zero.mp h0)
  rw [if_neg this]

/-- C2 (amended), at the example directory in raw ascending mode. -/
theorem total_line_sums_rendered_witness :
    main defaultConfig "D" exampleD =
      ⟨0, ["   0 c/", " 500 a", "2048 b", "2548 total"]⟩ ∧
    (2548 : Int) = (([⟨0, "0", "c/"⟩, ⟨500, "500", "a"⟩, ⟨2048, "2048", "b"⟩] :
      List Entry).map Entry.size).sum := by
  have h := total_line_sums_rendered defaultConfig "D" exampleD
    ⟨[⟨500, "500", "a"⟩, ⟨2048, "2048", "b"⟩, ⟨0, "0", "c/"⟩], 2548, 4⟩
    (by rfl) (by decide) (by decide) (by decide)
  exact ⟨h.1.trans (by decide), by decide⟩

/-- C9: the column width used for printing is the greatest length among the
formatted sizes of the listed records and the formatted grand total: it is
one of these lengths and none of them exceeds it. Every listed size string is
the formatted size of its record, so each size field, the total included,
fills exactly the column when padded. -/
theorem column_width_is_max (cfg : Config) (target : String) (sb : Node) (g : Globals)
    (h : collect cfg target sb = .ok g) :
    column_width cfg g ∈
      (rendered cfg g).map (fun e => (format_size cfg.unit_mode e.size).length) ++
        [(format_size cfg.unit_mode g.total_size).length] ∧
    (∀ n ∈ (rendered cfg g).map (fun e => (format_size cfg.unit_mode e.size).length) ++
        [(format_size cfg.unit_mode g.total_size).length], n ≤ column_width cfg g) ∧
    (∀ e ∈ rendered cfg g, e.size_str = format_size cfg.unit_mode e.size ∧
      (pad_left (column_width cfg g) e.size_str).length = column_width cfg g) ∧
    (pad_left (column_width cfg g) (format_size cfg.unit_mode g.total_size)).length =
      column_width cfg g := by
  obtain ⟨_, hs, hm, hx⟩ := collect_accounted cfg target sb g h
  have hle : ∀ e ∈ rendered cfg g,
      (format_size cfg.unit_mode e.size).length ≤ column_width cfg g := by
    intro e he
    have he' := (mem_rendered cfg g e).mp he
    have := hm e he'
    rw [hs e he'] at this
    unfold column_width
    split_ifs <;> omega
  have htot : (format_size cfg.unit_mode g.total_size).length ≤ column_width cfg g := by
    unfold column_width
    split_ifs <;> omega
  refine ⟨?_, ?_, ?_, pad_left_length _ _ htot⟩
  · simp only [List.mem_append, List.mem_map, List.mem_singleton]
    unfold column_width
    split_ifs with hgt
    · exact Or.inr rfl
    · rcases hx with hx | ⟨e, he, hx⟩
      · exact Or.inr (by omega)
      · refine Or.inl ⟨e, (mem_rendered cfg g e).mpr he, ?_⟩
        rw [← hs e he]; exact hx
  · intro n hn
    simp only [List.mem_append, List.mem_map, List.mem_singleton] at hn
    rcases hn with ⟨e, he, rfl⟩ | rfl
    · exact hle e he
    · exact htot
  · intro e he
    have hse := hs e ((mem_rendered cfg g e).mp he)
    refine ⟨hse, pad_left_length _ _ ?_⟩
    rw [hse]; exact hle e he

/-- C9, at the example directory in unit mode: the widest size string is the
total `2.488K`, of length 6. -/
theorem column_width_is_max_witness :
    column_width ⟨true, false, false, false, 0⟩
      ⟨[⟨500, "500B", "a"⟩, ⟨2048, "2K", "b"⟩, ⟨0, "0B", "c/"⟩], 2548, 4⟩ = 6 ∧
    main ⟨true, false, false, false, 0⟩ "D" exampleD =
      ⟨0, ["    0B c/", "  500B a", "    2K b", "2.488K total"]⟩ := by
  have h := column_width_is_max ⟨true, false, false, false, 0⟩ "D" exampleD
    ⟨[⟨500, "500B", "a"⟩, ⟨2048, "2K", "b"⟩, ⟨0, "0B", "c/"⟩], 2548, 4⟩ (by rfl)
  have h6 : (format_size true 2548).length = 6 := by decide
  refine ⟨?_, by decide⟩
  have h2 := h.2.1 6 (by simp [h6])
  have h1 := h.1
  simp only [List.mem_append, List.mem_map, List.mem_singleton] at h1
  rcases h1 with ⟨e, he, h1⟩ | h1
  · rw [mem_rendered] at he
    simp only [List.mem_cons, List.mem_singleton, List.not_mem_nil, or_false] at he
    rcases he with rfl | rfl | rfl
    · have : (format_size true 500).length = 4 := by decide
      simp only [this] at h1; omega
    · have : (format_size true 2048).length = 2 := by decide
      simp only [this] at h1; omega
    · have : (format_size true 0).length = 2 := by decide
      simp only [this] at h1; omega
  · rw [h1]; exact h6

/-! ## Filters -/

set_option maxRecDepth 8000 in
/-- C5 (as stated, refuted): with threshold 0 a directory holding two files
of `2^62` bytes, `2^63` bytes in all, is dropped, because the size computed
for it is the wrapped `-2^63`; and when the file `b` of `2^62` bytes is kept
after a total of `2^62`, the total becomes `-2^63` and not the sum. -/
theorem threshold_filter_wraps :
    computeSize (.dir true twoHugeFiles) = 9223372036854775808 ∧
    process_entry defaultConfig "D/sub" (.dir true twoHugeFiles) Globals.init =
      some Globals.init ∧
    (process_entry defaultConfig "D/b" (.reg 4611686018427387904)
        ⟨[⟨4611686018427387904, "4611686018427387904", "a"⟩], 4611686018427387904, 19⟩).map
      Globals.total_size = some (-9223372036854775808) := by
  decide

set_option maxRecDepth 8000 in
/-- C5 (amended): a regular file or a symlink (when `directories_only` is
off) and a directory for which `get_directory_size` returns (when
`files_only` is off) reach the threshold test with the size the program has
computed, `st_size` or the value of `get_directory_size`, and with their
label. There the entry is dropped, with the globals untouched, when that size
is strictly below `min_size_threshold`, and is otherwise appended to the list
with its size added to the total in `off_t` arithmetic, a size equal to the
threshold included. The new total is the exact sum when total and size are
non-negative and the sum is at most `2^63 - 1`, and the size computed for a
directory is the sum of its content when the paths fit, no size is negative
and the sum is at most `2^63 - 1`. Over a whole run every listed record has a
size that is not below the threshold. With threshold 1000 the example
directory yields the row of `b` and the total 2048. -/
theorem threshold_filter (cfg : Config) (path : String) (g0 : Globals) (target : String)
    (root : Node) (g : Globals) :
    (∀ (size : Int) (label : String),
      (size < cfg.min_size_threshold → keep_entry cfg size label g0 = g0) ∧
      (cfg.min_size_threshold ≤ size →
        keep_entry cfg size label g0 =
          ⟨g0.entry_list ++ [⟨size, format_size cfg.unit_mode size, label⟩],
            off_add g0.total_size size,
            if (format_size cfg.unit_mode size).length > g0.max_size_length then
              (format_size cfg.unit_mode size).length
            else g0.max_size_length⟩) ∧
      (0 ≤ g0.total_size → 0 ≤ size → g0.total_size + size ≤ OFF_MAX →
        off_add g0.total_size size = g0.total_size + size)) ∧
    (∀ s : Int, cfg.directories_only = false →
      process_entry cfg path (.reg s) g0 = some (keep_entry cfg s (basename path) g0)) ∧
    (∀ (s : Int) (t : String) (p : Node), cfg.directories_only = false →
      process_entry cfg path (.lnk s (some t) p) g0 =
        some (keep_entry cfg s (basename path ++ " -> " ++ t) g0) ∧
      process_entry cfg path (.lnk s none p) g0 =
        some (keep_entry cfg s (basename path ++ " -> " ++ "") g0)) ∧
    (∀ (r : Bool) (es : Entries) (size : Int), cfg.files_only = false →
      get_directory_size path (.dir r es) = some size →
      process_entry cfg path (.dir r es) g0 =
        some (keep_entry cfg size (basename path ++ "/") g0)) ∧
    (∀ (r : Bool) (es : Entries), paths_fit path (.dir r es) = true →
      sizes_nonneg (.dir r es) = true → computeSize (.dir r es) ≤ OFF_MAX →
      get_directory_size path (.dir r es) = some (computeSize (.dir r es))) ∧
    (collect cfg target root = .ok g → ∀ e ∈ g.entry_list, cfg.min_size_threshold ≤ e.size) ∧
    main ⟨false, false, false, false, 1000⟩ "D" exampleD = ⟨0, ["2048 b", "2048 total"]⟩ := by
  refine ⟨?_, ?_, ?_, ?_, ?_, ?_, by decide⟩
  · intro size label
    refine ⟨?_, ?_, ?_⟩
    · intro hlt; rw [keep_entry_eq, if_pos hlt]
    · intro hge; rw [keep_entry_eq, if_neg (not_lt.mpr hge)]
    · intro h0 h1 h2; exact off_add_exact _ _ h0 h1 h2
  · intro s hd
    simp [process_entry, lstat_fails, S_ISDIR, S_ISLNK, S_ISREG, st_size, hd]
  · intro s t p hd
    constructor <;>
      simp [process_entry, lstat_fails, S_ISDIR, S_ISLNK, st_size, readlink, hd]
  · intro r es size hf hg
    simp [process_entry, lstat_fails, S_ISDIR, S_ISLNK, hf, hg]
  · intro r es hfit hnn hmax
    exact get_directory_size_eq_computeSize _ path rfl hfit hnn hmax
  · intro h e he
    rw [collect_entry_list cfg target root g h, List.mem_filterMap] at he
    obtain ⟨c, _, hc⟩ := he
    exact surviving_record_size cfg c.1 c.2 e hc

/-- C5 (amended), with threshold 1000 at the file `a` of the example (500
bytes, dropped), at a symlink of 2048 bytes (kept), at a directory holding
1000 bytes (equal to the threshold, kept) and at the empty directory `c`
(dropped). -/
theorem threshold_filter_witness :
    process_entry ⟨false, false, false, false, 1000⟩ "D/a" (.reg 500) Globals.init =
      some Globals.init ∧
    process_entry ⟨false, false, false, false, 1000⟩ "D/l" (.lnk 2048 (some "b") .noent)
        Globals.init = some ⟨[⟨2048, "2048", "l -> b"⟩], 2048, 4⟩ ∧
    process_entry ⟨false, false, false, false, 1000⟩ "D/s" (.dir true (.cons "x" (.reg 1000) .nil))
        Globals.init = some ⟨[⟨1000, "1000", "s/"⟩], 1000, 4⟩ ∧
    process_entry ⟨false, false, false, false, 1000⟩ "D/c" (.dir true .nil) Globals.init =
      some Globals.init := by
  have h := threshold_filter ⟨false, false, false, false, 1000⟩
  refine ⟨?_, ?_, ?_, ?_⟩
  · exact ((h "D/a" Globals.init "D" exampleD Globals.init).2.1 500 rfl).trans (by decide)
  · exact (((h "D/l" Globals.init "D" exampleD Globals.init).2.2.1 2048 "b" .noent rfl).1).trans
      (by decide)
  · exact ((h "D/s" Globals.init "D" exampleD Globals.init).2.2.2.1 true
      (.cons "x" (.reg 1000) .nil) 1000 rfl (by decide)).trans (by decide)
  · exact ((h "D/c" Globals.init "D" exampleD Globals.init).2.2.2.1 true .nil 0 rfl
      (by decide)).trans (by decide)

set_option maxRecDepth 8000 in
/-- C6: with `files_only`, a real directory is dropped by `process_entry`
with the globals untouched, anything else is treated as without the flag, and
every record listed by a run comes from a candidate that is not a real
directory. With `directories_only`, whatever is not a real directory, a
symlink whatever it points to included, is dropped with the globals untouched,
and every listed record comes from a candidate that is a real directory.
With `files_only` the example directory yields the rows of `a` and `b` and the
total 2548. -/
theorem type_filter (cfg : Config) (target : String) (root : Node) (g : Globals) :
    (cfg.files_only = true →
      (∀ (path : String) (sb : Node) (g0 : Globals), (S_ISDIR sb && !S_ISLNK sb) = true →
        process_entry cfg path sb g0 = g0) ∧
      (∀ (path : String) (sb : Node) (g0 : Globals), (S_ISDIR sb && !S_ISLNK sb) = false →
        process_entry cfg path sb g0 =
          process_entry { cfg with files_only := false } path sb g0) ∧
      (collect cfg target root = .ok g →
        ∀ e ∈ g.entry_list, ∃ c ∈ candidates target root,
          (S_ISDIR c.2 && !S_ISLNK c.2) = false ∧ surviving_record cfg c.1 c.2 = some e)) ∧
    (cfg.directories_only = true →
      (∀ (path : String) (sb : Node) (g0 : Globals), (S_ISDIR sb && !S_ISLNK sb) = false →
        process_entry cfg path sb g0 = g0) ∧
      (∀ (path : String) (s : Int) (t : Option String) (p : Node) (g0 : Globals),
        process_entry cfg path (.lnk s t p) g0 = g0) ∧
      (collect cfg target root = .ok g →
        ∀ e ∈ g.entry_list, ∃ c ∈ candidates target root,
          (S_ISDIR c.2 && !S_ISLNK c.2) = true ∧ surviving_record cfg c.1 c.2 = some e)) ∧
    main ⟨false, false, true, false, 0⟩ "D" exampleD =
      ⟨0, [" 500 a", "2048 b", "2548 total"]⟩ := by
  refine ⟨?_, ?_, by decide⟩
  · intro hflag
    refine ⟨?_, ?_, ?_⟩
    · intro path sb g0 hdir
      unfold process_entry
      rw [hflag, hdir]
      simp
    · intro path sb g0 hdir
      unfold process_entry
      rw [hdir]
      simp [keep_entry]
    · intro h e he
      rw [collect_entry_list cfg target root g h, List.mem_filterMap] at he
      obtain ⟨c, hc, hrec⟩ := he
      exact ⟨c, hc, surviving_record_files_only cfg c.1 c.2 e hflag hrec, hrec⟩
  · intro hflag
    have hdrop : ∀ (path : String) (sb : Node) (g0 : Globals),
        (S_ISDIR sb && !S_ISLNK sb) = false → process_entry cfg path sb g0 = g0 := by
      intro path sb g0 hdir
      unfold process_entry
      rw [hflag, hdir]
      simp
    refine ⟨hdrop, ?_, ?_⟩
    · intro path s t p g0
      exact hdrop path _ g0 (by simp [S_ISDIR, S_ISLNK])
    · intro h e he
      rw [collect_entry_list cfg target root g h, List.mem_filterMap] at he
      obtain ⟨c, hc, hrec⟩ := he
      exact ⟨c, hc, surviving_record_directories_only cfg c.1 c.2 e hflag hrec, hrec⟩

/-- C6, at the example: `files_only` drops the directory `c`, and
`directories_only` drops a symlink that points to the example directory. -/
theorem type_filter_witness :
    process_entry ⟨false, false, true, false, 0⟩ "D/c" (.dir true .nil) Globals.init =
      Globals.init ∧
    process_entry ⟨false, false, false, true, 0⟩ "l" (.lnk 1 (some "D") exampleD)
      Globals.init = Globals.init := by
  constructor
  · exact ((type_filter ⟨false, false, true, false, 0⟩ "D" exampleD Globals.init).1 rfl).1
      "D/c" (.dir true .nil) Globals.init (by decide)
  · exact ((type_filter ⟨false, false, false, true, 0⟩ "D" exampleD Globals.init).2.1 rfl).2.1
      "l" 1 (some "D") exampleD Globals.init

/-! ## Scenarios -/

set_option maxRecDepth 8000 in
/-- C7 (as stated, refuted): in raw ascending mode the example directory is
not printed in the order `500 a`, `0 c/`, `2048 b`, `2548 total`. -/
theorem example_raw_not_in_stated_order :
    main defaultConfig "D" exampleD ≠
      ⟨0, [" 500 a", "   0 c/", "2048 b", "2548 total"]⟩ := by
  decide

set_option maxRecDepth 8000 in
/-- C7 (amended): in raw mode with ascending sort and no filter the example
directory is printed as `0 c/`, `500 a`, `2048 b`, then `2548 total`, each
size right-aligned in a column of width 4, also when `readdir` lists the
three entries in another order. -/
theorem example_raw_ascending :
    main defaultConfig "D" exampleD =
      ⟨0, ["   0 c/", " 500 a", "2048 b", "2548 total"]⟩ ∧
    main defaultConfig "D" (.dir true (.cons "c" (.dir true .nil)
        (.cons "b" (.reg 2048) (.cons "a" (.reg 500) .nil)))) =
      ⟨0, ["   0 c/", " 500 a", "2048 b", "2548 total"]⟩ ∧
    main defaultConfig "D" (.dir true (.cons "b" (.reg 2048)
        (.cons "c" (.dir true .nil) (.cons "a" (.reg 500) .nil)))) =
      ⟨0, ["   0 c/", " 500 a", "2048 b", "2548 total"]⟩ ∧
    (collect defaultConfig "D" exampleD).toOption.map (column_width defaultConfig) =
      some 4 := by
  decide

/-- C10: when the target is a regular file, `main` prints nothing (and exits
with success) if `directories_only` is set or the size is below the
threshold; otherwise it prints exactly two lines, the row of the file and the
total line, carrying the same formatted size. -/
theorem single_regular_file (cfg : Config) (target : String) (size : Int) :
    main cfg target (.reg size) =
      if cfg.directories_only = true ∨ size < cfg.min_size_threshold then ⟨0, []⟩
      else
        ⟨0, [format_size cfg.unit_mode size ++ " " ++ basename target,
              format_size cfg.unit_mode size ++ " " ++ "total"]⟩ := by
  by_cases hd : cfg.directories_only = true
  · simp [main, collect, lstat_fails, S_ISDIR, S_ISLNK, process_entry, hd, report, rendered,
      qsort, Globals.init, EXIT_SUCCESS]
  · have hd' : cfg.directories_only = false := by simpa using hd
    have hpe : process_entry cfg target (.reg size) Globals.init =
        some (keep_entry cfg size (basename target) Globals.init) := by
      simp [process_entry, lstat_fails, S_ISDIR, S_ISLNK, S_ISREG, st_size, hd']
    have hco : collect cfg target (.reg size) =
        .ok (keep_entry cfg size (basename target) Globals.init) := by
      unfold collect
      simp [S_ISDIR, hpe]
    by_cases hlt : size < cfg.min_size_threshold
    · have hk : keep_entry cfg size (basename target) Globals.init = Globals.init := by
        rw [keep_entry_eq, if_pos hlt]
      simp [main, lstat_fails, hco, hk, hd', hlt, report, rendered_init, EXIT_SUCCESS]
    · have hk : keep_entry cfg size (basename target) Globals.init =
          ⟨[⟨size, format_size cfg.unit_mode size, basename target⟩], size,
            (format_size cfg.unit_mode size).length⟩ := by
        rw [keep_entry_eq, if_neg hlt]
        have : (if (format_size cfg.unit_mode size).length > 0 then
            (format_size cfg.unit_mode size).length else 0) =
            (format_size cfg.unit_mode size).length := by
          split_ifs <;> omega
        simp [Globals.init, this, off_add_zero_left]
      have hw : column_width cfg
          ⟨[⟨size, format_size cfg.unit_mode size, basename target⟩], size,
            (format_size cfg.unit_mode size).length⟩ =
          (format_size cfg.unit_mode size).length := by
        simp [column_width]
      simp [main, lstat_fails, hco, hk, hd', hlt, report, rendered, qsort,
        hw, printf_row, pad_left_self]

/-! ## Unit formatting -/

theorem toDigitsCore_ne_nil (fuel : Nat) :
    ∀ (n : Nat) (ds : List Char), ds ≠ [] → Nat.toDigitsCore 10 fuel n ds ≠ [] := by
  induction fuel with
  | zero => intro n ds h; simpa [Nat.toDigitsCore] using h
  | succ f ih =>
    intro n ds h
    rw [Nat.toDigitsCore]
    by_cases h0 : n / 10 = 0
    · simp [h0]
    · simp only [h0, if_false]
      exact ih _ _ (List.cons_ne_nil _ _)

theorem decimal_ne_nil (n : Nat) : decimal n ≠ [] := by
  unfold decimal Nat.toDigits
  rw [Nat.toDigitsCore]
  by_cases h0 : n / 10 = 0
  · simp [h0]
  · simp only [h0, if_false]
    exact toDigitsCore_ne_nil _ _ _ (List.cons_ne_nil _ _)

theorem digitChar_ne_point (n : Nat) : Nat.digitChar n ≠ '.' := by
  by_cases h : n < 16
  · interval_cases n <;> decide
  · unfold Nat.digitChar
    iterate 16 rw [if_neg (by omega)]
    decide

/-- The pointer loop of `format_double` removes only zero digits of the
fraction and, when none is left, the decimal point. -/
theorem strip_eq_spec (ip : List Char) (d1 d2 d3 : Char) (hip : ip ≠ [])
    (h1 : d1 ≠ '.') (h2 : d2 ≠ '.') (h3 : d3 ≠ '.') :
    (strip_point (strip_zeros (ip ++ ['.', d1, d2, d3]).reverse)).reverse =
      if (([d1, d2, d3].reverse.dropWhile (fun c => c == '0')).reverse).isEmpty then ip
      else ip ++ '.' :: ([d1, d2, d3].reverse.dropWhile (fun c => c == '0')).reverse := by
  obtain ⟨c, rest, hrev⟩ : ∃ c rest, ip.reverse = c :: rest := by
    cases hr : ip.reverse with
    | nil => exact absurd (List.reverse_eq_nil_iff.mp hr) hip
    | cons c rest => exact ⟨c, rest, rfl⟩
  have hip' : ip = rest.reverse ++ [c] := by
    have := congrArg List.reverse hrev
    simpa using this
  have hrv : (ip ++ ['.', d1, d2, d3]).reverse = d3 :: d2 :: d1 :: '.' :: c :: rest := by
    simp [hrev]
  rw [hrv]
  by_cases e3 : d3 = '0'
  · by_cases e2 : d2 = '0'
    · by_cases e1 : d1 = '0'
      · subst e1 e2 e3
        simp [strip_zeros, strip_point, hip']
      · subst e2 e3
        simp [strip_zeros, strip_point, hip', e1, h1]
    · subst e3
      simp [strip_zeros, strip_point, hip', e2, h2]
  · simp [strip_zeros, strip_point, hip', e3, h3]

theorem format_double_eq_spec (value : Double) :
    format_double value = String.mk (spec_number_text value) := by
  unfold format_double spec_number_text snprintf_3f
  congr 1
  have hip : (if value.num < 0 then ['-'] else []) ++ decimal (value.thousandths / 1000) ≠ [] := by
    intro h
    exact decimal_ne_nil _ (List.append_eq_nil.mp h).2
  have := strip_eq_spec _ _ _ _ hip (digitChar_ne_point (value.thousandths % 1000 / 100))
    (digitChar_ne_point (value.thousandths % 100 / 10)) (digitChar_ne_point (value.thousandths % 10))
  simpa using this

/-- C8: in unit mode `format_size` yields, for every size, the scaled value
rendered with three fraction digits, with the trailing zero digits of the
fraction removed and the decimal point removed when no fraction digit
remains (the integer part is untouched), immediately followed by the unit
symbol; 1536 gives `1.5K`, 1024 gives `1K`, 500 gives `500B` and 2548 gives
`2.488K`. -/
theorem format_size_unit_text (size : Int) :
    format_size true size = spec_unit_text size ∧
    format_size true 1536 = "1.5K" ∧ format_size true 1024 = "1K" ∧
    format_size true 500 = "500B" ∧ format_size true 2548 = "2.488K" := by
  refine ⟨?_, by decide, by decide, by decide, by decide⟩
  unfold format_size spec_unit_text
  rw [if_pos rfl, format_double_eq_spec]

/-! ## Unit index and range of the printed number -/

theorem bitlenAux_spec :
    ∀ (fuel n : Nat), n ≤ fuel →
      n < 2 ^ bitlenAux fuel n ∧ (n ≠ 0 → 2 ^ (bitlenAux fuel n - 1) ≤ n) := by
  intro fuel
  induction fuel with
  | zero =>
    intro n hn
    have : n = 0 := by omega
    subst this
    simp [bitlenAux]
  | succ f ih =>
    intro n hn
    rw [bitlenAux]
    by_cases h0 : n = 0
    · subst h0; simp
    · rw [if_neg h0]
      obtain ⟨hlt, hge⟩ := ih (n / 2) (by omega)
      constructor
      · rw [pow_succ]; omega
      · intro _
        simp only [Nat.add_sub_cancel]
        by_cases h2 : n / 2 = 0
        · have hb : bitlenAux f (n / 2) = 0 := by
            rw [h2]; cases f <;> simp [bitlenAux]
          rw [hb]; simp; omega
        · have hpos : bitlenAux f (n / 2) ≠ 0 := by
            intro hz; rw [hz] at hlt; simp at hlt; exact h2 hlt
          have hge' := hge h2
          have hp : 2 ^ bitlenAux f (n / 2) = 2 * 2 ^ (bitlenAux f (n / 2) - 1) := by
            rw [← pow_succ']
            congr 1
            omega
          rw [hp]; omega

theorem lt_two_pow_bitlen (n : Nat) : n < 2 ^ bitlen n :=
  (bitlenAux_spec n n le_rfl).1

theorem two_pow_bitlen_le (n : Nat) (h : n ≠ 0) : 2 ^ (bitlen n - 1) ≤ n :=
  (bitlenAux_spec n n le_rfl).2 h

theorem bitlen_le_of_lt (n m : Nat) (h : n < 2 ^ m) : bitlen n ≤ m := by
  by_cases h0 : n = 0
  · subst h0
    have : bitlen 0 = 0 := by simp [bitlen, bitlenAux]
    omega
  · have h1 := two_pow_bitlen_le n h0
    have h2 : 2 ^ (bitlen n - 1) < 2 ^ m := lt_of_le_of_lt h1 h
    have := (Nat.pow_lt_pow_iff_right (by norm_num : 1 < 2)).mp h2
    omega

theorem lt_bitlen_of_le (n m : Nat) (h : 2 ^ m ≤ n) : m < bitlen n := by
  have h2 : 2 ^ m < 2 ^ bitlen n := lt_of_le_of_lt h (lt_two_pow_bitlen n)
  exact (Nat.pow_lt_pow_iff_right (by norm_num : 1 < 2)).mp h2

theorem roundNearestEven_ge (a d : Nat) : a / d ≤ roundNearestEven a d := by
  unfold roundNearestEven
  split_ifs <;> omega

theorem roundNearestEven_le (a d : Nat) : roundNearestEven a d ≤ a / d + 1 := by
  unfold roundNearestEven
  split_ifs <;> omega

/-- Rounding moves a value by at most half a unit of the last place. -/
theorem roundNearestEven_mul_le (a d : Nat) :
    2 * (roundNearestEven a d * d) ≤ 2 * a + d := by
  have h := Nat.div_add_mod a d
  unfold roundNearestEven
  split_ifs with hc
  · have : (a / d + 1) * d = d * (a / d) + d := by ring
    rw [this]
    rcases hc with hc | ⟨hc, _⟩ <;> omega
  · have : a / d * d = d * (a / d) := by ring
    rw [this]
    omega

theorem roundNearestEven_one (a : Nat) : roundNearestEven a 1 = a := by
  unfold roundNearestEven
  simp [Nat.mod_one]

/-- Below `2^53` the conversion to `double` is exact. -/
theorem round53_exact (n : Nat) (h : n < 2 ^ 53) : round53 n = n := by
  have hb := bitlen_le_of_lt n 53 h
  have : bitlen n - 53 = 0 := by omega
  unfold round53
  rw [this]
  simp [roundNearestEven_one]

/-- The conversion never rounds below a power of two that the value has
reached. -/
theorem round53_ge_pow (n m : Nat) (h : 2 ^ m ≤ n) : 2 ^ m ≤ round53 n := by
  by_cases hs : n < 2 ^ 53
  · rw [round53_exact n hs]; exact h
  · have hn0 : n ≠ 0 := by
      intro h0; subst h0; simp at hs
    have hbl : 53 < bitlen n := lt_bitlen_of_le n 53 (by omega)
    have hm : m < bitlen n := lt_bitlen_of_le n m h
    have hlow := two_pow_bitlen_le n hn0
    -- the quotient has at least 53 bits
    have hsplit : 2 ^ (bitlen n - 1) = 2 ^ 52 * 2 ^ (bitlen n - 53) := by
      rw [← pow_add]; congr 1; omega
    have hq : 2 ^ 52 ≤ n / 2 ^ (bitlen n - 53) := by
      rw [Nat.le_div_iff_mul_le (by positivity)]
      rw [← hsplit]; exact hlow
    have hr := roundNearestEven_ge n (2 ^ (bitlen n - 53))
    have h1 : 2 ^ 52 * 2 ^ (bitlen n - 53) ≤ round53 n := by
      unfold round53
      exact Nat.mul_le_mul_right _ (le_trans hq hr)
    rw [← hsplit] at h1
    exact le_trans (Nat.pow_le_pow_right (by norm_num) (by omega)) h1

/-- The conversion moves a value of at most `m` bits, `53 ≤ m`, by at most
`2^(m-54)`. -/
theorem round53_le (n m : Nat) (hm : 53 ≤ m) (h : n < 2 ^ m) :
    2 * round53 n ≤ 2 * n + 2 ^ (m - 53) := by
  have hb := bitlen_le_of_lt n m h
  have h1 := roundNearestEven_mul_le n (2 ^ (bitlen n - 53))
  have h2 : 2 ^ (bitlen n - 53) ≤ 2 ^ (m - 53) :=
    Nat.pow_le_pow_right (by norm_num) (by omega)
  unfold round53
  omega

theorem ofInt_natCast (b : Nat) : Double.ofInt (b : Int) = ⟨(round53 b : Int), 0⟩ := by
  unfold Double.ofInt
  have : ¬ ((b : Int) < 0) := by omega
  rw [if_neg this]
  simp

/-- The scaling loop stops at index `k` on a value in `[1024^k, 1024^(k+1))`,
`k ≤ 8`, leaving the value divided by `1024^k`. -/
theorem scale_loop_spec (n k : Nat) (hk : k ≤ 8) (hlo : 1024 ^ k ≤ n)
    (hhi : n < 1024 ^ (k + 1)) :
    ∀ (j fuel i : Nat), i + j = k → j ≤ fuel →
      scale_loop fuel ⟨(n : Int), 10 * i⟩ i = (⟨(n : Int), 10 * k⟩, k) := by
  intro j
  induction j with
  | zero =>
    intro fuel i hi _
    have hik : i = k := by omega
    subst hik
    cases fuel with
    | zero => rfl
    | succ f =>
      rw [scale_loop]
      have hge : Double.ge1024 ⟨(n : Int), 10 * i⟩ = false := by
        unfold Double.ge1024
        simp only [decide_eq_false_iff_not, not_le]
        have : (1024 : Nat) ^ (i + 1) = 1024 * 2 ^ (10 * i) := by
          rw [pow_succ, mul_comm, pow_mul]; norm_num
        rw [this] at hhi
        exact_mod_cast hhi
      rw [hge]
      simp
  | succ j ih =>
    intro fuel i hi hf
    obtain ⟨f, rfl⟩ : ∃ f, fuel = f + 1 := ⟨fuel - 1, by omega⟩
    rw [scale_loop]
    have hge : Double.ge1024 ⟨(n : Int), 10 * i⟩ = true := by
      unfold Double.ge1024
      simp only [decide_eq_true_eq]
      have h1 : (1024 : Nat) ^ (i + 1) ≤ 1024 ^ k :=
        Nat.pow_le_pow_right (by norm_num) (by omega)
      have : (1024 : Nat) ^ (i + 1) = 1024 * 2 ^ (10 * i) := by
        rw [pow_succ, mul_comm, pow_mul]; norm_num
      rw [this] at h1
      have h2 := le_trans h1 hlo
      exact_mod_cast h2
    have hidx : decide (i < units.length - 1) = true := by
      simp [units]; omega
    rw [hge, hidx]
    simp only [Bool.and_self, if_true]
    have := ih f (i + 1) (by omega) (by omega)
    simpa [Double.div1024, Nat.mul_add] using this

theorem scale_natCast (b k : Nat) (hk : k ≤ 8) (hlo : 1024 ^ k ≤ round53 b)
    (hhi : round53 b < 1024 ^ (k + 1)) :
    scale (b : Int) = (⟨(round53 b : Int), 10 * k⟩, k) := by
  unfold scale
  rw [ofInt_natCast]
  have h8 : units.length - 1 = 8 := by simp [units]
  rw [h8]
  exact scale_loop_spec (round53 b) k hk hlo hhi k 8 0 (by omega) hk

/-- The fuel of `scale_loop` is enough: the loop is left only when the source
condition `s >= 1024.0 && unit_index < 8` fails. -/
theorem scale_loop_exit :
    ∀ (fuel : Nat) (s : Double) (i : Nat), 8 ≤ i + fuel → i ≤ 8 →
      (scale_loop fuel s i).1.ge1024 = false ∨ (scale_loop fuel s i).2 = 8 := by
  intro fuel
  induction fuel with
  | zero => intro s i h1 h2; right; simp [scale_loop]; omega
  | succ f ih =>
    intro s i h1 h2
    rw [scale_loop]
    by_cases hc : (s.ge1024 && decide (i < units.length - 1)) = true
    · rw [if_pos hc]
      have hi : i < 8 := by
        have := (Bool.and_eq_true _ _).mp hc
        simpa [units] using this.2
      exact ih _ _ (by omega) (by omega)
    · rw [if_neg hc]
      by_cases hg : s.ge1024 = true
      · right
        have : ¬ i < 8 := by
          intro hi
          apply hc
          simp [hg, units, hi]
        simp only
        omega
      · left; simpa using hg

/-- The converted value stays in the band `[1024^k, 1024^(k+1))` of the byte
count, for every `off_t` byte count outside `[2^60 - 64, 2^60)`. -/
theorem round53_band (b k : Nat) (hlo : 1024 ^ k ≤ b) (hhi : b < 1024 ^ (k + 1))
    (hoff : b < 2 ^ 63) (hexc : b < 2 ^ 60 - 64 ∨ 2 ^ 60 ≤ b) :
    k ≤ 6 ∧ 1024 ^ k ≤ round53 b ∧ round53 b < 1024 ^ (k + 1) := by
  have hk : k ≤ 6 := by
    by_contra hcon
    have h7 : (1024 : Nat) ^ 7 ≤ 1024 ^ k := Nat.pow_le_pow_right (by norm_num) (by omega)
    have : (1024 : Nat) ^ 7 = 2 ^ 70 := by norm_num
    have : (2 : Nat) ^ 63 < 2 ^ 70 := by norm_num
    omega
  refine ⟨hk, ?_⟩
  by_cases hs : b < 2 ^ 53
  · rw [round53_exact b hs]; exact ⟨hlo, hhi⟩
  · have e5 : (1024 : Nat) ^ 5 = 2 ^ 50 := by norm_num
    have e6 : (1024 : Nat) ^ 6 = 2 ^ 60 := by norm_num
    have e7 : (1024 : Nat) ^ 7 = 2 ^ 70 := by norm_num
    have hk5 : 5 ≤ k := by
      by_contra hcon
      have : (1024 : Nat) ^ (k + 1) ≤ 1024 ^ 5 :=
        Nat.pow_le_pow_right (by norm_num) (by omega)
      have : (2 : Nat) ^ 50 < 2 ^ 53 := by norm_num
      omega
    have hcases : k = 5 ∨ k = 6 := by omega
    rcases hcases with rfl | rfl
    · rw [e5] at hlo ⊢
      rw [e6] at hhi ⊢
      refine ⟨round53_ge_pow b 50 hlo, ?_⟩
      have := round53_le b 60 (by norm_num) hhi
      norm_num at this hexc hhi ⊢
      omega
    · rw [e6] at hlo ⊢
      rw [e7] at hhi ⊢
      refine ⟨round53_ge_pow b 60 hlo, ?_⟩
      have := round53_le b 63 (by norm_num) hoff
      norm_num at this hoff ⊢
      omega

/-- C4 (as stated, refuted): the byte count `2^30 - 1` lies in
`[1024^2, 1024^3)` and is printed as `1024M`, with numeric part 1024; the byte
count `2^60 - 1` lies in `[1024^5, 1024^6)` and is printed as `1E`, with the
unit at index 6. -/
theorem format_size_band_fails :
    (1024 ^ 2 ≤ 1073741823 ∧ 1073741823 < 1024 ^ 3 ∧
      format_size true 1073741823 = "1024M" ∧
      (scale 1073741823).1.thousandths = 1024000) ∧
    (1024 ^ 5 ≤ 1152921504606846975 ∧ 1152921504606846975 < 1024 ^ 6 ∧
      format_size true 1152921504606846975 = "1E" ∧
      (scale 1152921504606846975).2 = 6) := by
  decide

/-- C4 (amended): in unit mode, for every byte count `b < 2^63` outside
`[2^60 - 64, 2^60)` and every `k` with `1024^k ≤ b < 1024^(k+1)`,
`format_size` scales `(double)b` by `1024^k` and appends the unit symbol at
index `k`; the scaled value lies in `[1, 1024)`, and the number printed, in
thousandths after the rounding of `%.3f`, lies between 1000 and 1024000, that
is in the closed interval `[1, 1024]`. -/
theorem format_size_band (b k : Nat) (hlo : 1024 ^ k ≤ b) (hhi : b < 1024 ^ (k + 1))
    (hoff : b < 2 ^ 63) (hexc : b < 2 ^ 60 - 64 ∨ 2 ^ 60 ≤ b) :
    scale (b : Int) = (⟨(round53 b : Int), 10 * k⟩, k) ∧
    format_size true (b : Int) = format_double (scale (b : Int)).1 ++ units.getD k "" ∧
    (2 : Int) ^ (scale (b : Int)).1.exp ≤ (scale (b : Int)).1.num ∧
    (scale (b : Int)).1.num < 1024 * 2 ^ (scale (b : Int)).1.exp ∧
    1000 ≤ (scale (b : Int)).1.thousandths ∧
    (scale (b : Int)).1.thousandths ≤ 1024000 := by
  obtain ⟨hk, hrlo, hrhi⟩ := round53_band b k hlo hhi hoff hexc
  have hsc := scale_natCast b k (by omega) hrlo hrhi
  have e1 : (1024 : Nat) ^ k = 2 ^ (10 * k) := by rw [pow_mul]; norm_num
  have e2 : (1024 : Nat) ^ (k + 1) = 1024 * 2 ^ (10 * k) := by
    rw [pow_succ, mul_comm, pow_mul]; norm_num
  rw [e1] at hrlo
  rw [e2] at hrhi
  have hpos : 0 < 2 ^ (10 * k) := by positivity
  refine ⟨hsc, ?_, ?_, ?_, ?_, ?_⟩
  · unfold format_size
    rw [if_pos rfl, hsc]
  · rw [hsc]; simp only; exact_mod_cast hrlo
  · rw [hsc]; simp only; exact_mod_cast hrhi
  · rw [hsc]
    unfold Double.thousandths
    simp only [Int.natAbs_ofNat]
    refine le_trans ?_ (roundNearestEven_ge _ _)
    rw [Nat.le_div_iff_mul_le hpos]
    nlinarith
  · rw [hsc]
    unfold Double.thousandths
    simp only [Int.natAbs_ofNat]
    refine le_trans (roundNearestEven_le _ _) ?_
    have : round53 b * 1000 / 2 ^ (10 * k) < 1024000 := by
      rw [Nat.div_lt_iff_lt_mul hpos]
      nlinarith
    omega

/-- C4 (amended), at 2548 bytes with `k = 1`. -/
theorem format_size_band_witness :
    (1024 ^ 1 ≤ 2548 ∧ 2548 < 1024 ^ 2) ∧
    scale ((2548 : Nat) : Int) = (⟨((round53 2548 : Nat) : Int), 10 * 1⟩, 1) :=
  ⟨by decide, (format_size_band 2548 1 (by decide) (by decide) (by decide)
    (Or.inl (by decide))).1⟩

end Duq
